import Mathlib

/-!
# Reverse-DNS name decoding and PTR resolution (`reversedns.go`)

A shallow embedding of `arpaToIP`, `parseIPv6Hex` and `resolvePTR` together with
the parts of the Go standard library they call (`strings`, `net`, `net/netip`,
`strconv`).

Conventions of the embedding:

* a Go `string` holding well-formed UTF-8 text is the list of its runes (`Str`);
  `len` is the length in bytes of its UTF-8 encoding;
* the functions of package `strings` act on runes; the parsers of `net`,
  `net/netip` and `strconv` read the bytes of the encoding (`List Nat`);
* a `net.IP` is `Option (List Nat)`: `none` is the nil slice, `some bs` a slice
  holding the bytes `bs`;
* `unicode.ToLower` on runes outside ASCII is a table that is not part of the
  program; it is the parameter `lowerRune`, and every theorem holds for every
  such table unless it says otherwise;
* the host table `t.entries` is a Go map; it is the list of its entries in the
  order in which one `range` visits them, and each record map is its lookup;
* `resolvePTR` takes `msg.Answer` before the call and returns it after the call;
* `arpaToIP` and `parseIPv6Hex` are read twice: once as plain functions, once
  with every index, slice and repeat count able to panic (`checked`).
-/

namespace ReverseDNS

/-- A Go string of well-formed UTF-8 text, as its sequence of runes. -/
abbrev Str := List Char

/-! ## UTF-8 encoding and `len` -/

/-- The UTF-8 encoding of one rune. -/
def utf8Rune (c : Char) : List Nat :=
  let n := c.toNat
  if n < 0x80 then [n]
  else if n < 0x800 then [0xC0 + n / 64, 0x80 + n % 64]
  else if n < 0x10000 then [0xE0 + n / 4096, 0x80 + n / 64 % 64, 0x80 + n % 64]
  else [0xF0 + n / 262144, 0x80 + n / 4096 % 64, 0x80 + n / 64 % 64, 0x80 + n % 64]

/-- The bytes of a string. -/
def utf8 : Str → List Nat
  | [] => []
  | c :: cs => utf8Rune c ++ utf8 cs

/-- Go `len(s)` for a string: the number of bytes. -/
def len (s : Str) : Nat := (utf8 s).length

/-! ## Package `strings` -/

/-- Go `unicode.IsSpace`: the Latin-1 spaces and the code points with the
White_Space property. -/
def isSpace (c : Char) : Bool :=
  let n := c.toNat
  n == 0x09 || n == 0x0A || n == 0x0B || n == 0x0C || n == 0x0D || n == 0x20 ||
  n == 0x85 || n == 0xA0 || n == 0x1680 || (0x2000 ≤ n && n ≤ 0x200A) ||
  n == 0x2028 || n == 0x2029 || n == 0x202F || n == 0x205F || n == 0x3000

/-- Go `strings.TrimSpace`: drop leading, then trailing, white space. -/
def TrimSpace (s : Str) : Str :=
  ((s.dropWhile isSpace).reverse.dropWhile isSpace).reverse

/-- Lower-casing of one rune: `A`..`Z` move to `a`..`z`, other ASCII runes stay,
and runes outside ASCII go through the table `lowerRune`. -/
def toLowerRune (lowerRune : Char → Char) (c : Char) : Char :=
  if c.toNat < 0x80 then
    if 0x41 ≤ c.toNat ∧ c.toNat ≤ 0x5A then Char.ofNat (c.toNat + 0x20) else c
  else lowerRune c

/-- Go `strings.ToLower`. -/
def ToLower (lowerRune : Char → Char) (s : Str) : Str :=
  s.map (toLowerRune lowerRune)

/-- Upper-casing of one rune: `a`..`z` move to `A`..`Z`, other ASCII runes stay,
and runes outside ASCII go through the table `upperRune`. -/
def toUpperRune (upperRune : Char → Char) (c : Char) : Char :=
  if c.toNat < 0x80 then
    if 0x61 ≤ c.toNat ∧ c.toNat ≤ 0x7A then Char.ofNat (c.toNat - 0x20) else c
  else upperRune c

/-- Go `strings.ToUpper`. -/
def ToUpper (upperRune : Char → Char) (s : Str) : Str :=
  s.map (toUpperRune upperRune)

/-- Go `strings.HasSuffix`. -/
def HasSuffix (s suffix : Str) : Bool :=
  decide (suffix.length ≤ s.length) && s.drop (s.length - suffix.length) == suffix

/-- Go `strings.TrimSuffix`. -/
def TrimSuffix (s suffix : Str) : Str :=
  if HasSuffix s suffix then s.take (s.length - suffix.length) else s

/-- Go `strings.Split(s, sep)` for a separator of one ASCII character: the
pieces between the occurrences of `sep`; always at least one piece. -/
def Split : Str → Char → List Str
  | [], _ => [[]]
  | c :: cs, sep =>
    if c = sep then [] :: Split cs sep
    else
      match Split cs sep with
      | [] => [[c]]
      | piece :: pieces => (c :: piece) :: pieces

/-! ## Package `strconv` -/

/-- The digit value `strconv.ParseUint` gives to one byte: decimal digits, then
letters of either case counting from ten; `none` for any other byte. -/
def digitVal (c : Nat) : Option Nat :=
  if 0x30 ≤ c ∧ c ≤ 0x39 then some (c - 0x30)
  else if 0x61 ≤ (c ||| 0x20) ∧ (c ||| 0x20) ≤ 0x7A then some ((c ||| 0x20) - 0x61 + 10)
  else none

/-- The digit loop of `strconv.ParseUint`. -/
def ParseUint.loop (base cutoff maxVal : Nat) : List Nat → Nat → Option Nat
  | [], n => some n
  | c :: cs, n =>
    match digitVal c with
    | none => none
    | some d =>
      if d ≥ base then none
      else if n ≥ cutoff then none
      else
        let n1 := n * base + d
        if n1 > maxVal then none else ParseUint.loop base cutoff maxVal cs n1

/-- Go `strconv.ParseUint(s, base, bitSize)` for an explicit base `2..36` and a
bit size `1..64`; `none` stands for a returned error. The prefix detection of
base 0 is not part of this embedding. -/
def ParseUint (s : List Nat) (base bitSize : Nat) : Option Nat :=
  if s = [] then none
  else if base < 2 ∨ 36 < base then none
  else ParseUint.loop base ((2 ^ 64 - 1) / base + 1) (2 ^ bitSize - 1) s 0

/-! ## Packages `net/netip` and `net` -/

/-- The loop of `netip.parseIPv4Fields`. `prev` is the byte before the current
one (`none` at the start), `val` and `digLen` the value and digit count of the
current field, `fields` the fields stored so far (`pos` is their number). -/
def parseIPv4Fields.loop : List Nat → Option Nat → Nat → Nat → List Nat → Option (List Nat)
  | [], _, val, _, fields =>
    if fields.length < 3 then none else some (fields ++ [val])
  | c :: cs, prev, val, digLen, fields =>
    if 0x30 ≤ c ∧ c ≤ 0x39 then
      if digLen = 1 ∧ val = 0 then none
      else
        let val1 := val * 10 + (c - 0x30)
        if val1 > 255 then none
        else parseIPv4Fields.loop cs (some c) val1 (digLen + 1) fields
    else if c = 0x2E then
      if prev = none ∨ cs = [] ∨ prev = some 0x2E then none
      else if fields.length = 3 then none
      else parseIPv4Fields.loop cs (some c) 0 0 (fields ++ [val])
    else none

/-- Go `netip.parseIPv4Fields` on the bytes `s`: the four fields, or `none` for
an error. -/
def parseIPv4Fields (s : List Nat) : Option (List Nat) :=
  parseIPv4Fields.loop s none 0 0 []

/-- The value of a byte as a hexadecimal digit in `netip.parseIPv6`. -/
def hexVal (c : Nat) : Option Nat :=
  if 0x30 ≤ c ∧ c ≤ 0x39 then some (c - 0x30)
  else if 0x61 ≤ c ∧ c ≤ 0x66 then some (c - 0x61 + 10)
  else if 0x41 ≤ c ∧ c ≤ 0x46 then some (c - 0x41 + 10)
  else none

/-- The inner loop of `netip.parseIPv6` reading one group of hex digits:
returns the number of digits read, their value and the rest of the input, or
`none` for a group of more than four digits or a value above `0xFFFF`. -/
def parseIPv6.group : List Nat → Nat → Nat → Option (Nat × Nat × List Nat)
  | [], off, acc => some (off, acc, [])
  | c :: cs, off, acc =>
    match hexVal c with
    | none => some (off, acc, c :: cs)
    | some d =>
      let acc1 := (acc * 16 + d) % 2 ^ 32
      if off > 3 then none
      else if acc1 > 0xFFFF then none
      else parseIPv6.group cs (off + 1) acc1

/-- The main loop of `netip.parseIPv6`. `s` is the input still to read, `ip`
the bytes written so far (`i` is their number) and `ellipsis` the position of
`::` if one was seen. Returns the final `(s, i, ellipsis, ip)` or `none` for an
error. Each round writes two bytes, so eight rounds reach `i = 16`. -/
def parseIPv6.loop : Nat → List Nat → Nat → Option Nat → List Nat →
    Option (List Nat × Nat × Option Nat × List Nat)
  | 0, s, i, ellipsis, ip => some (s, i, ellipsis, ip)
  | fuel + 1, s, i, ellipsis, ip =>
    if ¬ i < 16 then some (s, i, ellipsis, ip)
    else
      match parseIPv6.group s 0 0 with
      | none => none
      | some (off, acc, rest) =>
        if off = 0 then none
        else if rest.head? = some 0x2E then
          if ellipsis = none ∧ i ≠ 12 then none
          else if i + 4 > 16 then none
          else
            match parseIPv4Fields s with
            | none => none
            | some fields => some ([], i + 4, ellipsis, ip ++ fields)
        else
          let ip1 := ip ++ [acc / 256, acc % 256]
          match rest with
          | [] => some ([], i + 2, ellipsis, ip1)
          | c :: rest1 =>
            if c ≠ 0x3A then none
            else
              match rest1 with
              | [] => none
              | c1 :: rest2 =>
                if c1 = 0x3A then
                  if ellipsis.isSome then none
                  else if rest2 = [] then some ([], i + 2, some (i + 2), ip1)
                  else parseIPv6.loop fuel rest2 (i + 2) (some (i + 2)) ip1
                else parseIPv6.loop fuel (c1 :: rest2) (i + 2) ellipsis ip1

/-- Go `netip.parseIPv6`: the sixteen bytes and the zone, or `none` for an
error. -/
def parseIPv6 (input : List Nat) : Option (List Nat × List Nat) :=
  let cut : Option (List Nat × List Nat) :=
    if 0x25 ∈ input then
      let zone := (input.dropWhile (· ≠ 0x25)).drop 1
      if zone = [] then none else some (input.takeWhile (· ≠ 0x25), zone)
    else some (input, [])
  match cut with
  | none => none
  | some (s, zone) =>
    let lead : Bool := s.take 2 == [0x3A, 0x3A]
    let s1 := if lead then s.drop 2 else s
    if lead ∧ s1 = [] then some (List.replicate 16 0, zone)
    else
      match parseIPv6.loop 8 s1 0 (if lead then some 0 else none) [] with
      | none => none
      | some (rest, i, ellipsis, ip) =>
        if rest ≠ [] then none
        else if i < 16 then
          match ellipsis with
          | none => none
          | some e => some (ip.take e ++ List.replicate (16 - i) 0 ++ ip.drop e, zone)
        else if ellipsis.isSome then none
        else some (ip, zone)

/-- A `netip.Addr`: an IPv4 address of four bytes, or an IPv6 address of
sixteen bytes with its zone. -/
inductive Addr where
  | v4 (fields : List Nat)
  | v6 (ip : List Nat) (zone : List Nat)
  deriving DecidableEq, Repr

/-- The scan of `netip.ParseAddr` for the first `.`, `:` or `%`. -/
def ParseAddr.scan (s : List Nat) : List Nat → Option Addr
  | [] => none
  | c :: cs =>
    if c = 0x2E then (parseIPv4Fields s).map Addr.v4
    else if c = 0x3A then (parseIPv6 s).map (fun r => Addr.v6 r.1 r.2)
    else if c = 0x25 then none
    else ParseAddr.scan s cs

/-- Go `netip.ParseAddr`. -/
def ParseAddr (s : List Nat) : Option Addr := ParseAddr.scan s s

/-- Go `net.ParseIP`: the sixteen-byte form of the parsed address (an IPv4
address in its IPv4-mapped form), nil for an error or an address with a zone. -/
def ParseIP (s : List Nat) : Option (List Nat) :=
  match ParseAddr s with
  | none => none
  | some (Addr.v4 fields) => some (List.replicate 10 0 ++ [0xFF, 0xFF] ++ fields)
  | some (Addr.v6 ip zone) => if zone ≠ [] then none else some ip

/-- Go `net.IP.To4` on a non-nil slice. -/
def To4 (ip : List Nat) : Option (List Nat) :=
  if ip.length = 4 then some ip
  else if ip.length = 16 ∧ (ip.take 10).all (· == 0) ∧ ip.get? 10 = some 0xFF ∧
      ip.get? 11 = some 0xFF then
    some ((ip.drop 12).take 4)
  else none

/-! ## `reversedns.go` -/

/-- The loop of `parseIPv6Hex`: `k` more bytes to read from `h`. -/
def parseIPv6Hex.loop : Nat → List Nat → Option (List Nat)
  | 0, _ => some []
  | k + 1, h =>
    match ParseUint (h.take 2) 16 8 with
    | none => none
    | some byteVal =>
      match parseIPv6Hex.loop k (h.drop 2) with
      | none => none
      | some bs => some (byteVal % 256 :: bs)

/-- Source `parseIPv6Hex`: sixteen bytes from thirty-two hex characters. -/
def parseIPv6Hex (h : Str) : Option (List Nat) :=
  if len h ≠ 32 then none else parseIPv6Hex.loop 16 (utf8 h)

/-- The suffix `in-addr.arpa`. -/
def inAddrArpa : Str := ['i', 'n', '-', 'a', 'd', 'd', 'r', '.', 'a', 'r', 'p', 'a']

/-- The suffix `ip6.arpa`. -/
def ip6Arpa : Str := ['i', 'p', '6', '.', 'a', 'r', 'p', 'a']

/-- The first line of `arpaToIP`: trim, lower-case, drop one trailing dot. -/
def normalize (lowerRune : Char → Char) (qname : Str) : Str :=
  TrimSuffix (ToLower lowerRune (TrimSpace qname)) ['.']

/-- The loop of `arpaToIP` that writes the nibble labels, visited from the last
to the first, into the builder; `none` when a label is not one byte long. -/
def buildHex : List Str → Option Str
  | [] => some []
  | label :: rest =>
    if len label ≠ 1 then none
    else
      match buildHex rest with
      | none => none
      | some hex => some (label ++ hex)

/-- The `in-addr.arpa` branch of `arpaToIP` on `part`, the name without its
suffix: split into four labels, parse them in reverse order, keep the four-byte
form. -/
def arpaToIP.v4 (part : Str) : Option (List Nat) × Bool :=
  match Split part '.' with
  | [o0, o1, o2, o3] =>
    match ParseIP (utf8 (o3 ++ '.' :: (o2 ++ '.' :: (o1 ++ '.' :: o0)))) with
    | none => (none, false)
    | some ip => (To4 ip, true)
  | _ => (none, false)

/-- The `ip6.arpa` branch of `arpaToIP` on `part`, the name without its suffix:
split into nibble labels, write them in reverse order, pad with `0` to
thirty-two characters and read the bytes. -/
def arpaToIP.v6 (part : Str) : Option (List Nat) × Bool :=
  let nibbles := Split part '.'
  if nibbles.length = 0 ∨ nibbles.length > 32 then (none, false)
  else
    match buildHex nibbles.reverse with
    | none => (none, false)
    | some hex =>
      let hex1 := if len hex < 32 then hex ++ List.replicate (32 - len hex) '0' else hex
      match parseIPv6Hex hex1 with
      | none => (none, false)
      | some ip => (some ip, true)

/-- Source `arpaToIP`: the decoded address and the flag `found`. -/
def arpaToIP (lowerRune : Char → Char) (qname : Str) : Option (List Nat) × Bool :=
  let s := normalize lowerRune qname
  if HasSuffix s inAddrArpa then arpaToIP.v4 (TrimSuffix s ('.' :: inAddrArpa))
  else if HasSuffix s ip6Arpa then arpaToIP.v6 (TrimSuffix s ('.' :: ip6Arpa))
  else (none, false)

/-! ## `reversedns.go` with the run-time panics explicit

In this second reading of `parseIPv6Hex` and `arpaToIP` an outer `none` is a
run-time panic: an index or slice out of range, or a negative repeat count. -/

/-- Go slice expression `s[lo:hi]` on the bytes of a string; `none` is the panic
for bounds out of range. -/
def sliceChecked (s : List Nat) (lo hi : Nat) : Option (List Nat) :=
  if lo ≤ hi ∧ hi ≤ s.length then some ((s.take hi).drop lo) else none

/-- Go `strings.Repeat` of one character; `none` is the panic for a negative
count. -/
def RepeatChecked (c : Char) (count : Int) : Option Str :=
  if count < 0 then none else some (List.replicate count.toNat c)

/-- The loop of `parseIPv6Hex` from index `i`, with `k` rounds left. -/
def parseIPv6Hex.checkedLoop (h : List Nat) : Nat → Nat → Option (Option (List Nat))
  | 0, _ => some (some [])
  | k + 1, i =>
    match sliceChecked h (i * 2) (i * 2 + 2) with
    | none => none
    | some piece =>
      match ParseUint piece 16 8 with
      | none => some none
      | some byteVal =>
        match parseIPv6Hex.checkedLoop h k (i + 1) with
        | none => none
        | some none => some none
        | some (some bs) => some (some (byteVal % 256 :: bs))

/-- Source `parseIPv6Hex`, panics explicit. -/
def parseIPv6Hex.checked (h : Str) : Option (Option (List Nat)) :=
  if len h ≠ 32 then some none else parseIPv6Hex.checkedLoop (utf8 h) 16 0

/-- The nibble loop of `arpaToIP` reading `nibbles[i]` for `i` from `n - 1` down
to `0`, panics explicit; the inner `none` is the early return. -/
def buildHex.checked (nibbles : List Str) : Nat → Option (Option Str)
  | 0 => some (some [])
  | i + 1 =>
    match nibbles[i]? with
    | none => none
    | some label =>
      if len label ≠ 1 then some none
      else
        match buildHex.checked nibbles i with
        | none => none
        | some none => some none
        | some (some hex) => some (some (label ++ hex))

/-- The `in-addr.arpa` branch of `arpaToIP`, panics explicit. -/
def arpaToIP.checkedV4 (part : Str) : Option (Option (List Nat) × Bool) :=
  let oct := Split part '.'
  if oct.length ≠ 4 then some (none, false)
  else
    match oct[3]?, oct[2]?, oct[1]?, oct[0]? with
    | some o3, some o2, some o1, some o0 =>
      match ParseIP (utf8 (o3 ++ '.' :: (o2 ++ '.' :: (o1 ++ '.' :: o0)))) with
      | none => some (none, false)
      | some ip => some (To4 ip, true)
    | _, _, _, _ => none

/-- The `ip6.arpa` branch of `arpaToIP`, panics explicit. -/
def arpaToIP.checkedV6 (part : Str) : Option (Option (List Nat) × Bool) :=
  let nibbles := Split part '.'
  if nibbles.length = 0 ∨ nibbles.length > 32 then some (none, false)
  else
    match buildHex.checked nibbles nibbles.length with
    | none => none
    | some none => some (none, false)
    | some (some hex) =>
      let padded : Option Str :=
        if len hex < 32 then
          match RepeatChecked '0' (32 - (len hex : Int)) with
          | none => none
          | some zeros => some (hex ++ zeros)
        else some hex
      match padded with
      | none => none
      | some hex1 =>
        match parseIPv6Hex.checked hex1 with
        | none => none
        | some none => some (none, false)
        | some (some ip) => some (some ip, true)

/-- Source `arpaToIP`, panics explicit. -/
def arpaToIP.checked (lowerRune : Char → Char) (qname : Str) :
    Option (Option (List Nat) × Bool) :=
  let s := normalize lowerRune qname
  if HasSuffix s inAddrArpa then arpaToIP.checkedV4 (TrimSuffix s ('.' :: inAddrArpa))
  else if HasSuffix s ip6Arpa then arpaToIP.checkedV6 (TrimSuffix s ('.' :: ip6Arpa))
  else some (none, false)

/-- The string that `arpaToIP` hands to `parseIPv6Hex` on line 52, when that
call is reached. -/
def arpaToIP.hexArg (lowerRune : Char → Char) (qname : Str) : Option Str :=
  let s := normalize lowerRune qname
  if HasSuffix s inAddrArpa then none
  else if HasSuffix s ip6Arpa then
    let nibbles := Split (TrimSuffix s ('.' :: ip6Arpa)) '.'
    if nibbles.length = 0 ∨ nibbles.length > 32 then none
    else
      match buildHex nibbles.reverse with
      | none => none
      | some hex => some (if len hex < 32 then hex ++ List.replicate (32 - len hex) '0' else hex)
  else none

/-! ## `net.IP.String` -/

/-- Go `netip.appendDecimal`: an octet in decimal. -/
def appendDecimal (x : Nat) : Str :=
  (if x ≥ 100 then [Nat.digitChar (x / 100)] else []) ++
  (if x ≥ 10 then [Nat.digitChar (x / 10 % 10)] else []) ++ [Nat.digitChar (x % 10)]

/-- Go `netip.appendHex`: a sixteen-bit group in lower-case hexadecimal without
leading zeros. -/
def appendHex (x : Nat) : Str :=
  (if x ≥ 0x1000 then [Nat.digitChar (x / 4096 % 16)] else []) ++
  (if x ≥ 0x100 then [Nat.digitChar (x / 256 % 16)] else []) ++
  (if x ≥ 0x10 then [Nat.digitChar (x / 16 % 16)] else []) ++ [Nat.digitChar (x % 16)]

/-- Go `netip.Addr.string4`: the dotted quad of four bytes. -/
def string4 (p : List Nat) : Str :=
  appendDecimal (p.getD 0 0) ++ '.' :: (appendDecimal (p.getD 1 0) ++ '.' ::
    (appendDecimal (p.getD 2 0) ++ '.' :: appendDecimal (p.getD 3 0)))

/-- The eight sixteen-bit groups of sixteen bytes. -/
def groups16 : List Nat → List Nat
  | hi :: lo :: rest => (hi * 256 + lo) :: groups16 rest
  | _ => []

/-- The first loop of `netip.Addr.appendTo6`: the longest run of two or more
zero groups, the leftmost among equals, as `(zeroStart, zeroEnd)`; `(255, 255)`
when there is none. -/
def string6.zeros (groups : List Nat) : Nat × Nat :=
  (List.range 8).foldl (fun z i =>
    let l := ((groups.drop i).takeWhile (· == 0)).length
    if l ≥ 2 ∧ l > z.2 - z.1 then (i, i + l) else z) (255, 255)

/-- The second loop of `netip.Addr.appendTo6` from group `i`. -/
def string6.loop (groups : List Nat) (zeroStart zeroEnd : Nat) : Nat → Nat → Str
  | 0, _ => []
  | fuel + 1, i =>
    if ¬ i < 8 then []
    else if i = zeroStart then
      if zeroEnd ≥ 8 then [':', ':']
      else
        ':' :: ':' :: (appendHex (groups.getD zeroEnd 0) ++
          string6.loop groups zeroStart zeroEnd fuel (zeroEnd + 1))
    else
      (if i > 0 then [':'] else []) ++ appendHex (groups.getD i 0) ++
        string6.loop groups zeroStart zeroEnd fuel (i + 1)

/-- Go `netip.Addr.string6` of sixteen bytes without a zone. -/
def string6 (ip : List Nat) : Str :=
  let groups := groups16 ip
  let z := string6.zeros groups
  string6.loop groups z.1 z.2 8 0

/-- Go `net.hexString`: two lower-case hexadecimal digits per byte. -/
def hexString : List Nat → Str
  | [] => []
  | b :: bs => Nat.digitChar (b / 16 % 16) :: Nat.digitChar (b % 16) :: hexString bs

/-- Go `net.IP.String`. -/
def IPString (ip : Option (List Nat)) : Str :=
  match ip with
  | none => ['<', 'n', 'i', 'l', '>']
  | some bs =>
    if bs.length = 0 then ['<', 'n', 'i', 'l', '>']
    else if bs.length ≠ 4 ∧ bs.length ≠ 16 then '?' :: hexString bs
    else
      match To4 bs with
      | some p4 => string4 p4
      | none => string6 bs

/-! ## `resolvePTR` -/

/-- Modelled from the spec: the type of the values of `t.entries`, declared
outside `reversedns.go`. A Go `map[string][]string` from a record type (`A`,
`AAAA`) to address strings, given by its lookup; `none` is an absent key. -/
abbrev RRMap := Str → Option (List Str)

/-- Modelled from the spec: the value of `t.entries`, declared outside
`reversedns.go`: the host table as the short host names with their record maps,
in the order in which one `range` over the map visits them. -/
abbrev Entries := List (Str × RRMap)

/-- A `dns.PTR` record with the fields of its header that `resolvePTR` sets. -/
structure PTR where
  /-- The owner name `Hdr.Name`. -/
  Name : Str
  /-- The record type `Hdr.Rrtype`. -/
  Rrtype : Nat
  /-- The class `Hdr.Class`. -/
  Class : Nat
  /-- The time to live `Hdr.Ttl`. -/
  Ttl : Nat
  /-- The target `Ptr`. -/
  Ptr : Str
  deriving DecidableEq, Repr

/-- The constant `dns.TypePTR`. -/
def TypePTR : Nat := 12

/-- The constant `dns.ClassINET`. -/
def ClassINET : Nat := 1

/-- The key `A`. -/
def keyA : Str := ['A']

/-- The key `AAAA`. -/
def keyAAAA : Str := ['A', 'A', 'A', 'A']

/-- The inner loops of `resolvePTR` (lines 98-106 and 109-117): one pass over an
address list, appending a record for each address equal to `ipStr`. -/
def resolvePTR.addrs (qname ipStr hostShort zone : Str) : List Str → List PTR → List PTR
  | [], answer => answer
  | a :: rest, answer =>
    if a = ipStr then
      resolvePTR.addrs qname ipStr hostShort zone rest
        (answer ++ [{ Name := qname, Rrtype := TypePTR, Class := ClassINET, Ttl := 60,
                      Ptr := hostShort ++ '.' :: zone }])
    else resolvePTR.addrs qname ipStr hostShort zone rest answer

/-- The outer loop of `resolvePTR` (lines 96-119) over the host table. -/
def resolvePTR.hosts (qname ipStr zone : Str) : Entries → List PTR → List PTR
  | [], answer => answer
  | (hostShort, rrmap) :: rest, answer =>
    let answer1 :=
      match rrmap keyA with
      | some addrs => resolvePTR.addrs qname ipStr hostShort zone addrs answer
      | none => answer
    let answer2 :=
      match rrmap keyAAAA with
      | some addrs => resolvePTR.addrs qname ipStr hostShort zone addrs answer1
      | none => answer1
    resolvePTR.hosts qname ipStr zone rest answer2

/-- Lines 87-93 of `resolvePTR`: the zone used for the targets. -/
def effectiveZone (zone : Str) : Str :=
  let zone1 := if zone = [] then ['l', 'o', 'c', 'a', 'l', '.'] else zone
  if !HasSuffix zone1 ['.'] then zone1 ++ ['.'] else zone1

/-- Source `resolvePTR`: `zone` is `t.zone`, `entries` is `t.entries`, `answer`
is `msg.Answer` before the call; the result is `msg.Answer` after it. -/
def resolvePTR (lowerRune : Char → Char) (zone : Str) (entries : Entries) (qname : Str)
    (answer : List PTR) : List PTR :=
  match arpaToIP lowerRune qname with
  | (_, false) => answer
  | (ip, true) => resolvePTR.hosts qname (IPString ip) (effectiveZone zone) entries answer

/-! ## Vocabulary of the statements -/

/-- The ASCII bytes of the decimal numeral of an octet. -/
def octetBytes (n : Nat) : List Nat :=
  if n < 10 then [48 + n]
  else if n < 100 then [48 + n / 10, 48 + n % 10]
  else [48 + n / 100, 48 + n / 10 % 10, 48 + n % 10]

/-- The decimal numeral of `n`, without leading zeros. -/
def decimal (n : Nat) : Str := Nat.toDigits 10 n

/-- ASCII runes that `ToLower` leaves alone and `TrimSpace` does not drop. -/
def plain (c : Char) : Bool :=
  decide (c.toNat < 128) && !(decide (65 ≤ c.toNat) && decide (c.toNat ≤ 90)) && !isSpace c

/-- The decimal digits `0`..`9`. -/
def isDigit (c : Char) : Bool := decide (48 ≤ c.toNat) && decide (c.toNat ≤ 57)

/-- Labels joined by dots, as `strings.Join(labels, ".")`. -/
def dotted : List Str → Str
  | [] => []
  | [l] => l
  | l :: ls => l ++ '.' :: dotted ls

/-- One label per character. -/
def singles (cs : Str) : List Str := cs.map (fun c => [c])

/-- The bytes that are hexadecimal digits of either case. -/
def isHexByte (n : Nat) : Bool :=
  (decide (48 ≤ n) && decide (n ≤ 57)) || (decide (97 ≤ n) && decide (n ≤ 102)) ||
  (decide (65 ≤ n) && decide (n ≤ 70))

/-- The value of a byte that is a hexadecimal digit. -/
def nibbleOfByte (n : Nat) : Nat :=
  if n ≤ 57 then n - 48 else if n ≤ 70 then n - 55 else n - 87

/-- Hexadecimal digits of either case. -/
def isHex (c : Char) : Bool := isHexByte c.toNat

/-- The value of a hexadecimal digit. -/
def nibbleVal (c : Char) : Nat := nibbleOfByte c.toNat

/-- Bytes from nibbles, the more significant nibble of each byte first. -/
def packNibbles : List Nat → List Nat
  | hi :: lo :: rest => (16 * hi + lo) :: packNibbles rest
  | _ => []

/-- The nibbles of a list of bytes, the more significant nibble of each first. -/
def nibbles : List Nat → List Nat
  | [] => []
  | b :: bs => b / 16 :: b % 16 :: nibbles bs

/-- The twenty-two hexadecimal digits. -/
def hexChars : Str :=
  ['0', '1', '2', '3', '4', '5', '6', '7', '8', '9', 'a', 'b', 'c', 'd', 'e', 'f',
   'A', 'B', 'C', 'D', 'E', 'F']

/-- The lower-case hexadecimal digit of a nibble. -/
def hexDigit (n : Nat) : Char := Nat.digitChar n

/-! ## Vocabulary of the statements about `resolvePTR` -/

/-- The record that `resolvePTR` builds for a host. -/
def ptrRecord (qname hostShort zone : Str) : PTR :=
  { Name := qname, Rrtype := TypePTR, Class := ClassINET, Ttl := 60,
    Ptr := hostShort ++ '.' :: zone }

/-- The address list of a record map under a key; empty when the key is absent. -/
def addrsOf (rrmap : RRMap) (key : Str) : List Str := (rrmap key).getD []

/-- The addresses of one host that are equal to the matching key, those of the
`A` list first, then those of the `AAAA` list. -/
def matchesOf (ipStr : Str) (rrmap : RRMap) : List Str :=
  (addrsOf rrmap keyA).filter (fun a => a == ipStr) ++
    (addrsOf rrmap keyAAAA).filter (fun a => a == ipStr)

/-- The answers the spec asks for: for each host in table order, one record for
each string of its `A` list equal to `ipStr`, then one for each such string of
its `AAAA` list, with target `hostname ++ "." ++ zone`. -/
def expectedAnswers (qname ipStr zone : Str) (entries : Entries) : List PTR :=
  entries.flatMap (fun e => (matchesOf ipStr e.2).map (fun _ => ptrRecord qname e.1 zone))

/-- The dotted text `a.b.c.d`. -/
def dottedQuad (a b c d : Nat) : Str :=
  decimal a ++ '.' :: (decimal b ++ '.' :: (decimal c ++ '.' :: decimal d))

/-- The sixteen bytes of the IPv4-mapped address `::ffff:a.b.c.d`. -/
def mapped (a b c d : Nat) : List Nat := List.replicate 10 0 ++ [0xFF, 0xFF] ++ [a, b, c, d]

/-- The full reverse name of sixteen bytes under `ip6.arpa`, followed by `tail`. -/
def ip6Name (x : List Nat) (tail : Str) : Str :=
  dotted (singles ((nibbles x).reverse.map hexDigit)) ++ '.' :: (ip6Arpa ++ tail)

/-- A record map with the given `A` and `AAAA` lists; `none` leaves the key
absent. -/
def mkRRMap (a aaaa : Option (List Str)) : RRMap :=
  fun key => if key = keyA then a else if key = keyAAAA then aaaa else none

/-- The two lists of a host, the `A` list first. -/
def allAddrs (rrmap : RRMap) : List Str := addrsOf rrmap keyA ++ addrsOf rrmap keyAAAA

/-- The effective zone in the words of the spec: the configured zone if it is
not empty, the fallback `local.` otherwise, with a trailing dot ensured. -/
def specZone (zone : Str) : Str :=
  match zone.getLast? with
  | none => ['l', 'o', 'c', 'a', 'l', '.']
  | some c => if c = '.' then zone else zone ++ ['.']

/-! # Theorems

## Bytes of ASCII text -/

theorem utf8_append (a b : Str) : utf8 (a ++ b) = utf8 a ++ utf8 b := by
  induction a with
  | nil => rfl
  | cons c cs ih => simp [utf8, ih]

theorem utf8_ascii (s : Str) (h : ∀ c ∈ s, c.toNat < 128) : utf8 s = s.map Char.toNat := by
  induction s with
  | nil => rfl
  | cons c cs ih =>
    have hc : c.toNat < 128 := h c (List.mem_cons_self _ _)
    have hcs : ∀ d ∈ cs, d.toNat < 128 := fun d hd => h d (List.mem_cons_of_mem _ hd)
    simp [utf8, utf8Rune, hc, ih hcs]

theorem utf8Rune_length_pos (c : Char) : 0 < (utf8Rune c).length := by
  simp only [utf8Rune]
  split_ifs <;> simp

theorem utf8Rune_length_one (c : Char) (h : (utf8Rune c).length = 1) : c.toNat < 128 := by
  simp only [utf8Rune] at h
  split_ifs at h with h1 h2 h3
  · exact h1
  all_goals simp at h

/-- A string of one byte is one ASCII rune. -/
theorem len_eq_one (l : Str) : len l = 1 ↔ ∃ c, l = [c] ∧ c.toNat < 128 := by
  constructor
  · intro h
    match l, h with
    | [], h => simp [len, utf8] at h
    | [c], h =>
      refine ⟨c, rfl, utf8Rune_length_one c ?_⟩
      simpa [len, utf8] using h
    | c :: d :: r, h =>
      have h1 := utf8Rune_length_pos c
      have h2 := utf8Rune_length_pos d
      simp [len, utf8] at h
      omega
  · rintro ⟨c, rfl, hc⟩
    simp [len, utf8, utf8Rune, hc]

/-! ## Package `strings` -/

theorem HasSuffix_iff (s suffix : Str) : HasSuffix s suffix = true ↔ suffix <:+ s := by
  unfold HasSuffix
  rw [List.suffix_iff_eq_drop]
  constructor
  · intro h
    simp only [Bool.and_eq_true, decide_eq_true_eq, beq_iff_eq] at h
    exact h.2.symm
  · intro h
    simp only [Bool.and_eq_true, decide_eq_true_eq, beq_iff_eq]
    refine ⟨?_, h.symm⟩
    have := congrArg List.length h
    simp at this
    omega

theorem HasSuffix_append (x suffix : Str) : HasSuffix (x ++ suffix) suffix = true :=
  (HasSuffix_iff _ _).2 (List.suffix_append x suffix)

theorem TrimSuffix_append (x suffix : Str) : TrimSuffix (x ++ suffix) suffix = x := by
  simp [TrimSuffix, HasSuffix_append]

theorem TrimSuffix_of_not (s suffix : Str) (h : HasSuffix s suffix = false) :
    TrimSuffix s suffix = s := by
  simp [TrimSuffix, h]

theorem HasSuffix_eq_append (s suffix : Str) (h : HasSuffix s suffix = true) :
    s = TrimSuffix s suffix ++ suffix := by
  obtain ⟨t, rfl⟩ := (HasSuffix_iff _ _).1 h
  rw [TrimSuffix_append]

theorem dropWhile_eq_self_of_head {p : Char → Bool} (s : Str)
    (h : ∀ c ∈ s.head?, p c = false) : s.dropWhile p = s := by
  cases s with
  | nil => rfl
  | cons c cs =>
    have : p c = false := h c (by simp)
    simp [List.dropWhile, this]

theorem TrimSpace_eq_self (s : Str) (h1 : ∀ c ∈ s.head?, isSpace c = false)
    (h2 : ∀ c ∈ s.getLast?, isSpace c = false) : TrimSpace s = s := by
  unfold TrimSpace
  rw [dropWhile_eq_self_of_head s h1, dropWhile_eq_self_of_head s.reverse, List.reverse_reverse]
  simpa using h2

theorem Split_of_not_mem (l : Str) (sep : Char) (h : sep ∉ l) : Split l sep = [l] := by
  induction l with
  | nil => rfl
  | cons c cs ih =>
    have hc : c ≠ sep := fun e => h (e ▸ List.mem_cons_self _ _)
    have hcs : sep ∉ cs := fun m => h (List.mem_cons_of_mem _ m)
    simp [Split, hc, ih hcs]

theorem Split_append_sep (l r : Str) (sep : Char) (h : sep ∉ l) :
    Split (l ++ sep :: r) sep = l :: Split r sep := by
  induction l with
  | nil => simp [Split]
  | cons c cs ih =>
    have hc : c ≠ sep := fun e => h (e ▸ List.mem_cons_self _ _)
    have hcs : sep ∉ cs := fun m => h (List.mem_cons_of_mem _ m)
    simp [Split, hc, ih hcs]

theorem Split_ne_nil (s : Str) (sep : Char) : Split s sep ≠ [] := by
  induction s with
  | nil => simp [Split]
  | cons c cs ih =>
    unfold Split
    split_ifs
    · simp
    · split <;> simp

/-! ## `netip.parseIPv4Fields` on decimal octets -/

theorem loop_digit (p : Nat) (hp : p < 10) (cs : List Nat) (prev : Option Nat)
    (val digLen : Nat) (fields : List Nat) (h0 : ¬ (digLen = 1 ∧ val = 0))
    (hv : val * 10 + p ≤ 255) :
    parseIPv4Fields.loop ((48 + p) :: cs) prev val digLen fields
      = parseIPv4Fields.loop cs (some (48 + p)) (val * 10 + p) (digLen + 1) fields := by
  have l1 : 48 + p ≤ 57 := by omega
  have l2 : ¬ (255 < val * 10 + p) := by omega
  rw [parseIPv4Fields.loop]
  simp only [Nat.le_add_right, l1, and_self, if_true, h0, if_false, Nat.add_sub_cancel_left, gt_iff_lt, l2]

theorem loop_dot (r : List Nat) (p val digLen : Nat) (fields : List Nat)
    (hr : r ≠ []) (hf : fields.length < 3) (hp : p ≠ 0x2E) :
    parseIPv4Fields.loop (0x2E :: r) (some p) val digLen fields
      = parseIPv4Fields.loop r (some 0x2E) 0 0 (fields ++ [val]) := by
  have hf3 : fields.length ≠ 3 := by omega
  rw [parseIPv4Fields.loop]
  simp [hr, hf3, hp]

theorem loop_octet_dot (n : Nat) (hn : n < 256) (prev : Option Nat) (r fields : List Nat)
    (hr : r ≠ []) (hf : fields.length < 3) :
    parseIPv4Fields.loop (octetBytes n ++ 0x2E :: r) prev 0 0 fields
      = parseIPv4Fields.loop r (some 0x2E) 0 0 (fields ++ [n]) := by
  unfold octetBytes
  split_ifs with h1 h2
  · rw [List.singleton_append, loop_digit n h1 _ _ _ _ _ (by omega) (by omega),
      loop_dot _ _ _ _ _ hr hf (by omega)]
    simp
  · rw [List.cons_append, List.singleton_append,
      loop_digit _ (by omega) _ _ _ _ _ (by omega) (by omega),
      loop_digit _ (by omega) _ _ _ _ _ (by omega) (by omega),
      loop_dot _ _ _ _ _ hr hf (by omega)]
    congr 2
    simp
    omega
  · rw [List.cons_append, List.cons_append, List.singleton_append,
      loop_digit _ (by omega) _ _ _ _ _ (by omega) (by omega),
      loop_digit _ (by omega) _ _ _ _ _ (by omega) (by omega),
      loop_digit _ (by omega) _ _ _ _ _ (by omega) (by omega),
      loop_dot _ _ _ _ _ hr hf (by omega)]
    congr 2
    simp
    omega

theorem loop_octet_end (n : Nat) (hn : n < 256) (prev : Option Nat) (fields : List Nat)
    (hf : fields.length = 3) :
    parseIPv4Fields.loop (octetBytes n) prev 0 0 fields = some (fields ++ [n]) := by
  have hf3 : ¬ fields.length < 3 := by omega
  unfold octetBytes
  split_ifs with h1 h2
  · rw [loop_digit n h1 _ _ _ _ _ (by omega) (by omega), parseIPv4Fields.loop]
    simp [hf3]
  · rw [loop_digit _ (by omega) _ _ _ _ _ (by omega) (by omega),
      loop_digit _ (by omega) _ _ _ _ _ (by omega) (by omega), parseIPv4Fields.loop]
    simp [hf3]
    omega
  · rw [loop_digit _ (by omega) _ _ _ _ _ (by omega) (by omega),
      loop_digit _ (by omega) _ _ _ _ _ (by omega) (by omega),
      loop_digit _ (by omega) _ _ _ _ _ (by omega) (by omega), parseIPv4Fields.loop]
    simp [hf3]
    omega

/-! ## Normalizing names of plain runes -/

theorem toLowerRune_plain (lowerRune : Char → Char) (c : Char) (h : plain c = true) :
    toLowerRune lowerRune c = c := by
  simp only [plain, Bool.and_eq_true, decide_eq_true_eq, Bool.not_eq_true',
    Bool.and_eq_false_iff, decide_eq_false_iff_not] at h
  have h1 := h.1.1
  have h2 : ¬ (65 ≤ c.toNat ∧ c.toNat ≤ 90) := by
    have := h.1.2
    omega
  simp [toLowerRune, h1, h2]

theorem ToLower_plain (lowerRune : Char → Char) (s : Str) (h : s.all plain = true) :
    ToLower lowerRune s = s := by
  unfold ToLower
  induction s with
  | nil => rfl
  | cons c cs ih =>
    simp only [List.all_cons, Bool.and_eq_true] at h
    simp [toLowerRune_plain lowerRune c h.1, ih h.2]

theorem TrimSpace_plain (s : Str) (h : s.all plain = true) : TrimSpace s = s := by
  have hs : ∀ c ∈ s, isSpace c = false := by
    intro c hc
    have := List.all_eq_true.1 h c hc
    simp only [plain, Bool.and_eq_true, Bool.not_eq_true'] at this
    exact this.2
  apply TrimSpace_eq_self
  · intro c hc
    exact hs c (List.mem_of_mem_head? hc)
  · intro c hc
    exact hs c (List.mem_of_mem_getLast? hc)

/-- A name of plain runes followed by one dot normalizes to the name. -/
theorem normalize_plain_dot (lowerRune : Char → Char) (x : Str) (h : x.all plain = true) :
    normalize lowerRune (x ++ ['.']) = x := by
  have hx : (x ++ ['.']).all plain = true := by
    rw [List.all_append, h]
    decide
  unfold normalize
  rw [TrimSpace_plain _ hx, ToLower_plain _ _ hx, TrimSuffix_append]

theorem isDigit_plain (c : Char) (h : isDigit c = true) : plain c = true := by
  simp only [isDigit, Bool.and_eq_true, decide_eq_true_eq] at h
  simp only [plain, isSpace, Bool.and_eq_true, decide_eq_true_eq, Bool.not_eq_true',
    Bool.and_eq_false_iff, decide_eq_false_iff_not, Bool.or_eq_false_iff, beq_eq_false_iff_ne]
  omega

theorem all_plain_of_isDigit (s : Str) (h : s.all isDigit = true) : s.all plain = true := by
  rw [List.all_eq_true] at h ⊢
  exact fun c hc => isDigit_plain c (h c hc)

theorem not_mem_of_isDigit (s : Str) (h : s.all isDigit = true) (c : Char)
    (hc : isDigit c = false) : c ∉ s := by
  intro hm
  have := List.all_eq_true.1 h c hm
  rw [hc] at this
  exact Bool.false_ne_true this

set_option maxRecDepth 100000 in
theorem decimal_isDigit : ∀ n < 256, (decimal n).all isDigit = true := by
  decide

set_option maxRecDepth 100000 in
theorem decimal_toNat : ∀ n < 256, (decimal n).map Char.toNat = octetBytes n := by
  decide

theorem utf8_decimal (n : Nat) (hn : n < 256) : utf8 (decimal n) = octetBytes n := by
  rw [utf8_ascii, decimal_toNat n hn]
  intro c hc
  have := List.all_eq_true.1 (decimal_isDigit n hn) c hc
  simp only [isDigit, Bool.and_eq_true, decide_eq_true_eq] at this
  omega

/-! ## `net.ParseIP` on a dotted quad; the `in-addr.arpa` branch -/

theorem octetBytes_digit (n : Nat) (hn : n < 256) : ∀ b ∈ octetBytes n, 48 ≤ b ∧ b ≤ 57 := by
  intro b hb
  unfold octetBytes at hb
  split_ifs at hb <;> simp at hb <;> omega

theorem octetBytes_ne_nil (n : Nat) : octetBytes n ≠ [] := by
  unfold octetBytes
  split_ifs <;> simp

theorem scan_dot_first (s pre rest : List Nat)
    (h : ∀ b ∈ pre, b ≠ 0x2E ∧ b ≠ 0x3A ∧ b ≠ 0x25) :
    ParseAddr.scan s (pre ++ 0x2E :: rest) = (parseIPv4Fields s).map Addr.v4 := by
  induction pre with
  | nil => simp [ParseAddr.scan]
  | cons b bs ih =>
    have hb := h b (List.mem_cons_self _ _)
    have hbs : ∀ b ∈ bs, b ≠ 0x2E ∧ b ≠ 0x3A ∧ b ≠ 0x25 :=
      fun c hc => h c (List.mem_cons_of_mem _ hc)
    simp [ParseAddr.scan, hb.1, hb.2.1, hb.2.2, ih hbs]

theorem parseIPv4Fields_octets (a b c d : Nat) (ha : a < 256) (hb : b < 256) (hc : c < 256)
    (hd : d < 256) :
    parseIPv4Fields
        (octetBytes a ++ 0x2E :: (octetBytes b ++ 0x2E :: (octetBytes c ++ 0x2E :: octetBytes d)))
      = some [a, b, c, d] := by
  have nd := octetBytes_ne_nil d
  have nc := octetBytes_ne_nil c
  have nb := octetBytes_ne_nil b
  unfold parseIPv4Fields
  rw [loop_octet_dot a ha _ _ _ (by simp) (by simp),
    loop_octet_dot b hb _ _ _ (by simp) (by simp),
    loop_octet_dot c hc _ _ _ (by simp [nd]) (by simp),
    loop_octet_end d hd _ _ (by simp)]
  simp

theorem ParseIP_octets (a b c d : Nat) (ha : a < 256) (hb : b < 256) (hc : c < 256)
    (hd : d < 256) :
    ParseIP
        (octetBytes a ++ 0x2E :: (octetBytes b ++ 0x2E :: (octetBytes c ++ 0x2E :: octetBytes d)))
      = some (List.replicate 10 0 ++ [0xFF, 0xFF] ++ [a, b, c, d]) := by
  unfold ParseIP ParseAddr
  rw [scan_dot_first _ (octetBytes a) _ (fun x hx => by
    have := octetBytes_digit a ha x hx
    omega), parseIPv4Fields_octets a b c d ha hb hc hd]
  rfl

theorem To4_mapped (a b c d : Nat) :
    To4 (List.replicate 10 0 ++ [0xFF, 0xFF] ++ [a, b, c, d]) = some [a, b, c, d] := by
  simp [To4, List.replicate]

/-- The `in-addr.arpa` branch is taken on a normalized name `x.in-addr.arpa`. -/
theorem arpaToIP_of_inAddr (lowerRune : Char → Char) (q x : Str)
    (h : normalize lowerRune q = x ++ '.' :: inAddrArpa) :
    arpaToIP lowerRune q = arpaToIP.v4 x := by
  have hs : HasSuffix (x ++ '.' :: inAddrArpa) inAddrArpa = true := by
    have : x ++ '.' :: inAddrArpa = (x ++ ['.']) ++ inAddrArpa := by simp
    rw [this]
    exact HasSuffix_append _ _
  simp only [arpaToIP, h, hs, if_true, TrimSuffix_append]

/-- Claim C1: for octets `a b c d` in `0..255` written in decimal without
leading zeros, `arpaToIP` on `d.c.b.a.in-addr.arpa.` reports `found = true` and
returns the four bytes `[a, b, c, d]`. -/
theorem arpaToIP_ipv4_roundtrip (lowerRune : Char → Char) (a b c d : Nat)
    (ha : a < 256) (hb : b < 256) (hc : c < 256) (hd : d < 256) :
    arpaToIP lowerRune
        (decimal d ++ '.' :: (decimal c ++ '.' :: (decimal b ++ '.' :: (decimal a ++
          '.' :: (inAddrArpa ++ ['.'])))))
      = (some [a, b, c, d], true) := by
  have hA := decimal_isDigit a ha
  have hB := decimal_isDigit b hb
  have hC := decimal_isDigit c hc
  have hD := decimal_isDigit d hd
  have hdot : isDigit '.' = false := by decide
  have hplain : (decimal d ++ '.' :: (decimal c ++ '.' :: (decimal b ++ '.' :: (decimal a ++
      '.' :: inAddrArpa)))).all plain = true := by
    simp only [List.all_append, List.all_cons, all_plain_of_isDigit _ hA,
      all_plain_of_isDigit _ hB, all_plain_of_isDigit _ hC, all_plain_of_isDigit _ hD,
      Bool.true_and, Bool.and_eq_true]
    decide
  have hq : decimal d ++ '.' :: (decimal c ++ '.' :: (decimal b ++ '.' :: (decimal a ++
        '.' :: (inAddrArpa ++ ['.']))))
      = (decimal d ++ '.' :: (decimal c ++ '.' :: (decimal b ++ '.' :: (decimal a ++
        '.' :: inAddrArpa)))) ++ ['.'] := by simp
  have hn := normalize_plain_dot lowerRune _ hplain
  rw [← hq] at hn
  have hx : decimal d ++ '.' :: (decimal c ++ '.' :: (decimal b ++ '.' :: (decimal a ++
        '.' :: inAddrArpa)))
      = (decimal d ++ '.' :: (decimal c ++ '.' :: (decimal b ++ '.' :: decimal a))) ++
        '.' :: inAddrArpa := by simp
  rw [hx] at hn
  rw [arpaToIP_of_inAddr lowerRune _ _ hn]
  unfold arpaToIP.v4
  rw [Split_append_sep _ _ _ (not_mem_of_isDigit _ hD _ hdot),
    Split_append_sep _ _ _ (not_mem_of_isDigit _ hC _ hdot),
    Split_append_sep _ _ _ (not_mem_of_isDigit _ hB _ hdot),
    Split_of_not_mem _ _ (not_mem_of_isDigit _ hA _ hdot)]
  have hu : utf8 (decimal a ++ '.' :: (decimal b ++ '.' :: (decimal c ++ '.' :: decimal d)))
      = octetBytes a ++ 0x2E :: (octetBytes b ++ 0x2E :: (octetBytes c ++ 0x2E :: octetBytes d)) := by
    simp only [utf8_append, utf8, utf8_decimal _ ha, utf8_decimal _ hb, utf8_decimal _ hc,
      utf8_decimal _ hd]
    rfl
  simp only [hu, ParseIP_octets a b c d ha hb hc hd, To4_mapped]

theorem arpaToIP_ipv4_roundtrip_witness :
    arpaToIP id
        (decimal 5 ++ '.' :: (decimal 0 ++ '.' :: (decimal 0 ++ '.' :: (decimal 10 ++
          '.' :: (inAddrArpa ++ ['.'])))))
      = (some [10, 0, 0, 5], true) :=
  arpaToIP_ipv4_roundtrip id 10 0 0 5 (by decide) (by decide) (by decide) (by decide)

/-! ## The `ip6.arpa` branch -/

theorem mem_hexChars (c : Char) (h : isHex c = true) : c ∈ hexChars := by
  have e : c = Char.ofNat c.toNat := (Char.ofNat_toNat c).symm
  simp only [isHex, isHexByte, Bool.or_eq_true, Bool.and_eq_true, decide_eq_true_eq] at h
  generalize c.toNat = n at e h
  subst e
  rcases h with (⟨h1, h2⟩ | ⟨h1, h2⟩) | ⟨h1, h2⟩ <;> interval_cases n <;> decide

theorem hex_forall (P : Char → Prop) (hP : ∀ c ∈ hexChars, P c) (c : Char)
    (h : isHex c = true) : P c := hP c (mem_hexChars c h)

theorem ip6_not_inAddr (s : Str) (h : HasSuffix s ip6Arpa = true) :
    HasSuffix s inAddrArpa = false := by
  rw [Bool.eq_false_iff]
  intro h2
  rw [HasSuffix_iff] at h h2
  have := List.suffix_of_suffix_length_le h h2 (by decide)
  revert this
  decide

/-- The `ip6.arpa` branch is taken on a normalized name `x.ip6.arpa`. -/
theorem arpaToIP_of_ip6 (lowerRune : Char → Char) (q x : Str)
    (h : normalize lowerRune q = x ++ '.' :: ip6Arpa) :
    arpaToIP lowerRune q = arpaToIP.v6 x := by
  have hs : HasSuffix (x ++ '.' :: ip6Arpa) ip6Arpa = true := by
    have : x ++ '.' :: ip6Arpa = (x ++ ['.']) ++ ip6Arpa := by simp
    rw [this]
    exact HasSuffix_append _ _
  simp only [arpaToIP, h, hs, ip6_not_inAddr _ hs, if_true, TrimSuffix_append]
  simp

theorem Split_dotted (ls : List Str) (hne : ls ≠ []) (h : ∀ l ∈ ls, '.' ∉ l) :
    Split (dotted ls) '.' = ls := by
  induction ls with
  | nil => exact absurd rfl hne
  | cons l rest ih =>
    cases rest with
    | nil => simpa [dotted] using Split_of_not_mem l '.' (h l (by simp))
    | cons l2 rest2 =>
      have h1 : '.' ∉ l := h l (by simp)
      have h2 : ∀ m ∈ l2 :: rest2, '.' ∉ m := fun m hm => h m (List.mem_cons_of_mem _ hm)
      simp only [dotted]
      rw [Split_append_sep _ _ _ h1]
      have := ih (by simp) h2
      simp only [dotted] at this
      rw [this]

theorem isHex_ascii (c : Char) (h : isHex c = true) : c.toNat < 128 := by
  simp only [isHex, isHexByte, Bool.or_eq_true, Bool.and_eq_true, decide_eq_true_eq] at h
  omega

/-- What `ParseUint` with base 16 makes of one ASCII byte. -/
theorem digitVal_hex : ∀ n < 128,
    (digitVal n).filter (fun d => decide (d < 16))
      = if isHexByte n then some (nibbleOfByte n) else none := by
  decide

theorem ParseUint_pair (a b : Nat) :
    ParseUint [a, b] 16 8
      = ((digitVal a).filter (fun d => decide (d < 16))).bind (fun x =>
          ((digitVal b).filter (fun d => decide (d < 16))).bind (fun y => some (x * 16 + y))) := by
  simp only [ParseUint, ParseUint.loop]
  cases ha : digitVal a with
  | none => simp
  | some x =>
    by_cases hx : x < 16
    · cases hb : digitVal b with
      | none => simp [Option.filter, hx]
      | some y =>
        by_cases hy : y < 16
        · have h1 : ¬ (16 ≤ x) := by omega
          have h2 : ¬ (16 ≤ y) := by omega
          have h3 : ¬ (255 < x) := by omega
          have h4 : ¬ (255 < x * 16 + y) := by omega
          have h5 : x < 1152921504606846976 := by omega
          simp [Option.filter, hx, hy, h1, h2, h3, h4, h5]
        · have h1 : ¬ (16 ≤ x) := by omega
          have h2 : 16 ≤ y := by omega
          have h3 : ¬ (255 < x) := by omega
          have h5 : x < 1152921504606846976 := by omega
          simp [Option.filter, hx, hy, h1, h2, h3, h5]
    · have h1 : 16 ≤ x := by omega
      simp [Option.filter, hx, h1]

theorem ParseUint_hex_pair (a b : Char) (ha : isHex a = true) (hb : isHex b = true) :
    ParseUint [a.toNat, b.toNat] 16 8 = some (16 * nibbleVal a + nibbleVal b) := by
  rw [ParseUint_pair, digitVal_hex _ (isHex_ascii a ha), digitVal_hex _ (isHex_ascii b hb)]
  simp only [isHex] at ha hb
  simp [ha, hb, nibbleVal, Nat.mul_comm]

theorem nibbleVal_lt (c : Char) (h : isHex c = true) : nibbleVal c < 16 := by
  simp only [isHex, isHexByte, Bool.or_eq_true, Bool.and_eq_true, decide_eq_true_eq] at h
  simp only [nibbleVal, nibbleOfByte]
  split_ifs <;> omega

theorem parseIPv6Hex_loop_hex (k : Nat) (h : Str) (hl : h.length = 2 * k)
    (hh : h.all isHex = true) :
    parseIPv6Hex.loop k (h.map Char.toNat) = some (packNibbles (h.map nibbleVal)) := by
  induction k generalizing h with
  | zero =>
    have : h = [] := List.eq_nil_of_length_eq_zero (by simpa using hl)
    subst this
    rfl
  | succ k ih =>
    match h, hl, hh with
    | a :: b :: r, hl, hh =>
      simp only [List.all_cons, Bool.and_eq_true] at hh
      have hr : r.length = 2 * k := by simp at hl; omega
      have hv : (16 * nibbleVal a + nibbleVal b) % 256 = 16 * nibbleVal a + nibbleVal b := by
        have := nibbleVal_lt a hh.1
        have := nibbleVal_lt b hh.2.1
        omega
      simp [parseIPv6Hex.loop, ParseUint_hex_pair a b hh.1 hh.2.1, ih r hr hh.2.2, packNibbles, hv]
    | [], hl, _ => simp at hl
    | [_], hl, _ => simp at hl; omega

theorem parseIPv6Hex_loop_some (k : Nat) (h : Str) (hl : h.length = 2 * k)
    (ha : ∀ c ∈ h, c.toNat < 128)
    (hs : parseIPv6Hex.loop k (h.map Char.toNat) ≠ none) : h.all isHex = true := by
  induction k generalizing h with
  | zero =>
    have : h = [] := List.eq_nil_of_length_eq_zero (by simpa using hl)
    subst this
    rfl
  | succ k ih =>
    match h, hl, ha, hs with
    | a :: b :: r, hl, ha, hs =>
      have hr : r.length = 2 * k := by simp at hl; omega
      have haa : a.toNat < 128 := ha a (by simp)
      have hab : b.toNat < 128 := ha b (by simp)
      have har : ∀ c ∈ r, c.toNat < 128 := fun c hc => ha c (by simp [hc])
      simp only [List.map_cons, parseIPv6Hex.loop, List.take_succ_cons, List.take_zero,
        List.drop_succ_cons, List.drop_zero] at hs
      rw [ParseUint_pair, digitVal_hex _ haa, digitVal_hex _ hab] at hs
      by_cases h1 : isHex a = true
      · by_cases h2 : isHex b = true
        · have h3 : r.all isHex = true := by
            apply ih r hr har
            intro hn
            rw [hn] at hs
            simp only [isHex] at h1 h2
            simp [h1, h2] at hs
          simp [h1, h2, h3]
        · simp only [isHex] at h1 h2
          simp [h1, h2] at hs
      · simp only [isHex] at h1
        simp [h1] at hs
    | [], hl, _, _ => simp at hl
    | [_], hl, _, _ => simp at hl; omega

theorem len_ascii (s : Str) (h : ∀ c ∈ s, c.toNat < 128) : len s = s.length := by
  simp [len, utf8_ascii s h]

theorem parseIPv6Hex_ascii (h : Str) (ha : ∀ c ∈ h, c.toNat < 128) (hl : h.length = 32) :
    parseIPv6Hex h = parseIPv6Hex.loop 16 (h.map Char.toNat) := by
  simp [parseIPv6Hex, len_ascii h ha, hl, utf8_ascii h ha]

theorem all_isHex_ascii (h : Str) (hh : h.all isHex = true) : ∀ c ∈ h, c.toNat < 128 :=
  fun c hc => isHex_ascii c (List.all_eq_true.1 hh c hc)

/-- Thirty-two hexadecimal digits are read as the sixteen bytes they spell. -/
theorem parseIPv6Hex_hex (h : Str) (hl : h.length = 32) (hh : h.all isHex = true) :
    parseIPv6Hex h = some (packNibbles (h.map nibbleVal)) := by
  rw [parseIPv6Hex_ascii h (all_isHex_ascii h hh) hl]
  exact parseIPv6Hex_loop_hex 16 h (by omega) hh

/-- Thirty-two ASCII characters are read only when all are hexadecimal digits. -/
theorem parseIPv6Hex_some (h : Str) (ha : ∀ c ∈ h, c.toNat < 128) (hl : h.length = 32)
    (hs : parseIPv6Hex h ≠ none) : h.all isHex = true := by
  rw [parseIPv6Hex_ascii h ha hl] at hs
  exact parseIPv6Hex_loop_some 16 h (by omega) ha hs

theorem buildHex_singles (cs : Str) (h : ∀ c ∈ cs, c.toNat < 128) :
    buildHex (singles cs) = some cs := by
  induction cs with
  | nil => rfl
  | cons c r ih =>
    have hc : len [c] = 1 := (len_eq_one [c]).2 ⟨c, rfl, h c (by simp)⟩
    have hr : ∀ d ∈ r, d.toNat < 128 := fun d hd => h d (by simp [hd])
    have := ih hr
    simp only [singles] at this
    simp [singles, buildHex, hc, this]

theorem buildHex_some (ls : List Str) (hex : Str) (h : buildHex ls = some hex) :
    ∃ cs : Str, ls = singles cs ∧ ∀ c ∈ cs, c.toNat < 128 := by
  induction ls generalizing hex with
  | nil => exact ⟨[], rfl, by simp⟩
  | cons l r ih =>
    unfold buildHex at h
    split_ifs at h with h1
    cases hb : buildHex r with
    | none => simp [hb] at h
    | some hex2 =>
      obtain ⟨cs, hcs, hacs⟩ := ih hex2 hb
      have h1' : len l = 1 := by
        by_contra hne
        exact h1 hne
      obtain ⟨c, hc, hac⟩ := (len_eq_one l).1 h1'
      refine ⟨c :: cs, by simp [singles, hc, hcs], ?_⟩
      intro d hd
      rcases List.mem_cons.1 hd with rfl | hd
      · exact hac
      · exact hacs d hd

theorem singles_reverse (cs : Str) : (singles cs).reverse = singles cs.reverse := by
  simp [singles, List.map_reverse]

theorem singles_length (cs : Str) : (singles cs).length = cs.length := by
  simp [singles]

/-- The `ip6.arpa` branch on labels of one ASCII character each: the characters
in reverse order, padded with `0`, go to `parseIPv6Hex`. -/
theorem v6_eval (part cs : Str) (hs : Split part '.' = singles cs)
    (ha : ∀ c ∈ cs, c.toNat < 128) (hlen : cs.length ≤ 32) :
    arpaToIP.v6 part
      = match parseIPv6Hex (cs.reverse ++ List.replicate (32 - cs.length) '0') with
        | none => (none, false)
        | some ip => (some ip, true) := by
  have hne : cs.length ≠ 0 := by
    intro h0
    have := Split_ne_nil part '.'
    rw [hs] at this
    have hcs : cs = [] := List.eq_nil_of_length_eq_zero h0
    simp [hcs, singles] at this
  have har : ∀ c ∈ cs.reverse, c.toNat < 128 := fun c hc => ha c (List.mem_reverse.1 hc)
  have hl : len cs.reverse = cs.length := by rw [len_ascii _ har, List.length_reverse]
  have h32 : ¬ (32 < cs.length) := by omega
  simp only [arpaToIP.v6, hs, singles_length, hne, h32, or_self, if_false, singles_reverse,
    buildHex_singles _ har, hl]
  by_cases hlt : cs.length < 32
  · simp [hlt]
  · have : cs.length = 32 := by omega
    simp [this]

theorem toLowerRune_ascii (lowerRune : Char → Char) (c : Char) (h : c.toNat < 128) :
    toLowerRune lowerRune c = toLowerRune id c := by
  simp [toLowerRune, h]

theorem hexChars_lower : ∀ c ∈ hexChars,
    isHex (toLowerRune id c) = true ∧ nibbleVal (toLowerRune id c) = nibbleVal c := by
  decide

theorem isHex_toLowerRune (lowerRune : Char → Char) (c : Char) (h : isHex c = true) :
    isHex (toLowerRune lowerRune c) = true ∧
      nibbleVal (toLowerRune lowerRune c) = nibbleVal c := by
  rw [toLowerRune_ascii lowerRune c (isHex_ascii c h)]
  exact hexChars_lower c (mem_hexChars c h)

theorem hexChars_noSpace : ∀ c ∈ hexChars, isSpace c = false ∧ c ≠ '.' := by
  decide

theorem TrimSpace_noSpace (s : Str) (h : ∀ c ∈ s, isSpace c = false) : TrimSpace s = s := by
  apply TrimSpace_eq_self
  · intro c hc
    exact h c (List.mem_of_mem_head? hc)
  · intro c hc
    exact h c (List.mem_of_mem_getLast? hc)

theorem ToLower_append (lowerRune : Char → Char) (a b : Str) :
    ToLower lowerRune (a ++ b) = ToLower lowerRune a ++ ToLower lowerRune b := by
  simp [ToLower]

theorem ToLower_plain_cons (lowerRune : Char → Char) (c : Char) (s : Str)
    (h : plain c = true) : ToLower lowerRune (c :: s) = c :: ToLower lowerRune s := by
  simp [ToLower, toLowerRune_plain lowerRune c h]

theorem ToLower_dotted_singles (lowerRune : Char → Char) (cs : Str) :
    ToLower lowerRune (dotted (singles cs)) = dotted (singles (ToLower lowerRune cs)) := by
  induction cs with
  | nil => rfl
  | cons c r ih =>
    cases r with
    | nil => simp [singles, dotted, ToLower]
    | cons d r2 =>
      have e1 : dotted (singles (c :: d :: r2)) = c :: '.' :: dotted (singles (d :: r2)) := by
        simp [singles, dotted]
      have e2 : dotted (singles (ToLower lowerRune (c :: d :: r2)))
          = toLowerRune lowerRune c :: '.' :: dotted (singles (ToLower lowerRune (d :: r2))) := by
        simp [singles, dotted, ToLower]
      rw [e1, e2, ← ih]
      have hdot : toLowerRune lowerRune '.' = '.' := toLowerRune_plain lowerRune '.' (by decide)
      simp [ToLower, hdot]

theorem mem_dotted_singles (cs : Str) (c : Char) (h : c ∈ dotted (singles cs)) :
    c ∈ cs ∨ c = '.' := by
  induction cs with
  | nil => simp [singles, dotted] at h
  | cons a r ih =>
    cases r with
    | nil =>
      simp [singles, dotted] at h
      simp [h]
    | cons d r2 =>
      have e1 : dotted (singles (a :: d :: r2)) = a :: '.' :: dotted (singles (d :: r2)) := by
        simp [singles, dotted]
      rw [e1] at h
      rcases List.mem_cons.1 h with rfl | h
      · simp
      · rcases List.mem_cons.1 h with rfl | h
        · simp
        · rcases ih h with h | h
          · exact Or.inl (List.mem_cons_of_mem _ h)
          · exact Or.inr h

theorem HasSuffix_dot_snoc (x : Str) (c : Char) (h : c ≠ '.') :
    HasSuffix (x ++ [c]) ['.'] = false := by
  rw [Bool.eq_false_iff]
  intro hs
  rw [HasSuffix_iff] at hs
  obtain ⟨t, ht⟩ := hs
  have := congrArg List.getLast? ht
  simp at this
  exact h this.symm

/-- How a name of nibble labels under `ip6.arpa`, with or without the final
dot, normalizes: the labels are lower-cased and the final dot goes. -/
theorem normalize_nibble_name (lowerRune : Char → Char) (cs : Str) (hh : cs.all isHex = true)
    (tail : Str) (ht : tail = [] ∨ tail = ['.']) :
    normalize lowerRune (dotted (singles cs) ++ '.' :: (ip6Arpa ++ tail))
      = dotted (singles (ToLower lowerRune cs)) ++ '.' :: ip6Arpa := by
  have hsp : ∀ c ∈ dotted (singles cs) ++ '.' :: (ip6Arpa ++ tail), isSpace c = false := by
    intro c hc
    rcases List.mem_append.1 hc with h | h
    · rcases mem_dotted_singles cs c h with h | rfl
      · exact (hexChars_noSpace c (mem_hexChars c (List.all_eq_true.1 hh c h))).1
      · decide
    · have h1 : ∀ d ∈ '.' :: (ip6Arpa ++ []), isSpace d = false := by decide
      have h2 : ∀ d ∈ '.' :: (ip6Arpa ++ ['.']), isSpace d = false := by decide
      rcases ht with rfl | rfl
      · exact h1 c h
      · exact h2 c h
  have hsuf : ToLower lowerRune ('.' :: ip6Arpa) = '.' :: ip6Arpa :=
    ToLower_plain _ _ (by decide)
  have hsuf2 : ToLower lowerRune ('.' :: (ip6Arpa ++ ['.'])) = '.' :: (ip6Arpa ++ ['.']) :=
    ToLower_plain _ _ (by decide)
  unfold normalize
  rw [TrimSpace_noSpace _ hsp, ToLower_append, ToLower_dotted_singles]
  rcases ht with rfl | rfl
  · rw [List.append_nil, hsuf]
    apply TrimSuffix_of_not
    have : dotted (singles (ToLower lowerRune cs)) ++ '.' :: ip6Arpa
        = (dotted (singles (ToLower lowerRune cs)) ++ ['.', 'i', 'p', '6', '.', 'a', 'r', 'p'])
          ++ ['a'] := by simp [ip6Arpa]
    rw [this]
    exact HasSuffix_dot_snoc _ _ (by decide)
  · rw [hsuf2]
    have : dotted (singles (ToLower lowerRune cs)) ++ '.' :: (ip6Arpa ++ ['.'])
        = (dotted (singles (ToLower lowerRune cs)) ++ '.' :: ip6Arpa) ++ ['.'] := by simp
    rw [this, TrimSuffix_append]

theorem ToLower_all_isHex (lowerRune : Char → Char) (cs : Str) (hh : cs.all isHex = true) :
    (ToLower lowerRune cs).all isHex = true ∧
      (ToLower lowerRune cs).map nibbleVal = cs.map nibbleVal := by
  induction cs with
  | nil => exact ⟨rfl, rfl⟩
  | cons c r ih =>
    simp only [List.all_cons, Bool.and_eq_true] at hh
    obtain ⟨h1, h2⟩ := isHex_toLowerRune lowerRune c hh.1
    obtain ⟨h3, h4⟩ := ih hh.2
    simp only [ToLower] at h3 h4
    simp [ToLower, h1, h2, h3, h4]

/-- Decoding a name of `1..32` one-digit hexadecimal labels under `ip6.arpa`,
with or without the final dot: the digits in reverse order, padded with zero
nibbles to thirty-two, spell the sixteen bytes returned. -/
theorem arpaToIP_nibble_labels (lowerRune : Char → Char) (cs : Str) (hne : cs ≠ [])
    (hlen : cs.length ≤ 32) (hh : cs.all isHex = true) (tail : Str)
    (ht : tail = [] ∨ tail = ['.']) :
    arpaToIP lowerRune (dotted (singles cs) ++ '.' :: (ip6Arpa ++ tail))
      = (some (packNibbles (cs.reverse.map nibbleVal ++ List.replicate (32 - cs.length) 0)),
          true) := by
  obtain ⟨hl1, hl2⟩ := ToLower_all_isHex lowerRune cs hh
  have hlen2 : (ToLower lowerRune cs).length = cs.length := by simp [ToLower]
  have hne2 : singles (ToLower lowerRune cs) ≠ [] := by
    intro h
    have := congrArg List.length h
    rw [singles_length, hlen2] at this
    exact hne (List.eq_nil_of_length_eq_zero this)
  have hnodot : ∀ l ∈ singles (ToLower lowerRune cs), '.' ∉ l := by
    intro l hl hdot
    simp only [singles, List.mem_map] at hl
    obtain ⟨c, hc, rfl⟩ := hl
    have hc2 : isHex c = true := List.all_eq_true.1 hl1 c hc
    have : '.' = c := by simpa using hdot
    subst this
    revert hc2
    decide
  rw [arpaToIP_of_ip6 lowerRune _ _ (normalize_nibble_name lowerRune cs hh tail ht),
    v6_eval _ (ToLower lowerRune cs) (Split_dotted _ hne2 hnodot) (all_isHex_ascii _ hl1)
      (by omega)]
  have hall : ((ToLower lowerRune cs).reverse
      ++ List.replicate (32 - (ToLower lowerRune cs).length) '0').all isHex = true := by
    rw [List.all_append, List.all_reverse, hl1]
    simp only [Bool.true_and, List.all_eq_true]
    intro c hc
    rw [List.eq_of_mem_replicate hc]
    decide
  rw [parseIPv6Hex_hex _ (by simp; omega) hall]
  have hz : nibbleVal '0' = 0 := by decide
  simp only [List.map_append, List.map_reverse, hl2, List.map_replicate, hz, hlen2]

theorem hexDigit_spec : ∀ n < 16, isHex (hexDigit n) = true ∧ nibbleVal (hexDigit n) = n := by
  decide

theorem packNibbles_nibbles (x : List Nat) : packNibbles (nibbles x) = x := by
  induction x with
  | nil => rfl
  | cons b bs ih =>
    simp only [nibbles, packNibbles, ih]
    congr 1
    omega

theorem nibbles_lt (x : List Nat) (hb : ∀ b ∈ x, b < 256) : ∀ n ∈ nibbles x, n < 16 := by
  induction x with
  | nil => simp [nibbles]
  | cons b bs ih =>
    have h1 : b < 256 := hb b (by simp)
    have h2 : ∀ c ∈ bs, c < 256 := fun c hc => hb c (by simp [hc])
    intro n hn
    simp only [nibbles, List.mem_cons] at hn
    rcases hn with rfl | rfl | hn
    · omega
    · omega
    · exact ih h2 n hn

theorem nibbles_length (x : List Nat) : (nibbles x).length = 2 * x.length := by
  induction x with
  | nil => rfl
  | cons b bs ih => simp [nibbles, ih]; omega

theorem map_hexDigit (ns : List Nat) (h : ∀ n ∈ ns, n < 16) :
    (ns.map hexDigit).all isHex = true ∧ (ns.map hexDigit).map nibbleVal = ns := by
  induction ns with
  | nil => exact ⟨rfl, rfl⟩
  | cons n r ih =>
    obtain ⟨h1, h2⟩ := hexDigit_spec n (h n (by simp))
    obtain ⟨h3, h4⟩ := ih (fun m hm => h m (by simp [hm]))
    simp [h1, h2, h3, h4]

/-- Claim C2: for every sixteen-byte address `x`, `arpaToIP` on the name made of
the thirty-two hexadecimal nibbles of `x` in reverse order, one label each,
followed by `.ip6.arpa.`, reports `found = true` and returns the bytes of `x`. -/
theorem arpaToIP_ipv6_roundtrip (lowerRune : Char → Char) (x : List Nat)
    (hx : x.length = 16) (hb : ∀ b ∈ x, b < 256) :
    arpaToIP lowerRune
        (dotted (singles ((nibbles x).reverse.map hexDigit)) ++ '.' :: (ip6Arpa ++ ['.']))
      = (some x, true) := by
  have hlt : ∀ n ∈ (nibbles x).reverse, n < 16 :=
    fun n hn => nibbles_lt x hb n (List.mem_reverse.1 hn)
  obtain ⟨h1, h2⟩ := map_hexDigit _ hlt
  have hlen : ((nibbles x).reverse.map hexDigit).length = 32 := by
    simp [nibbles_length, hx]
  have hne : (nibbles x).reverse.map hexDigit ≠ [] := by
    intro h
    rw [h] at hlen
    simp at hlen
  rw [arpaToIP_nibble_labels lowerRune _ hne (by omega) h1 ['.'] (Or.inr rfl), hlen]
  obtain ⟨_, h3⟩ := map_hexDigit (nibbles x) (nibbles_lt x hb)
  simp only [List.map_reverse, List.reverse_reverse, h3, Nat.sub_self, List.replicate_zero,
    List.append_nil, packNibbles_nibbles]

theorem arpaToIP_ipv6_roundtrip_witness :
    arpaToIP id
        (dotted (singles ((nibbles [0x20, 0x01, 0x0d, 0xb8, 0, 0, 0, 0, 0, 0, 0, 0, 0, 0, 0, 1]).reverse.map
          hexDigit)) ++ '.' :: (ip6Arpa ++ ['.']))
      = (some [0x20, 0x01, 0x0d, 0xb8, 0, 0, 0, 0, 0, 0, 0, 0, 0, 0, 0, 1], true) :=
  arpaToIP_ipv6_roundtrip id [0x20, 0x01, 0x0d, 0xb8, 0, 0, 0, 0, 0, 0, 0, 0, 0, 0, 0, 1]
    (by decide) (by decide)

/-- Claim C5: a name of `n` one-digit hexadecimal labels, `1 ≤ n < 32`, followed
by `.ip6.arpa` decodes with `found = true` to the sixteen bytes whose nibbles
are the labels in reverse order followed by `32 - n` zero nibbles; and that is
the result of decoding the name with `32 - n` labels `0` put in front. -/
theorem arpaToIP_partial_nibbles (lowerRune : Char → Char) (cs : Str)
    (h1 : 1 ≤ cs.length) (h2 : cs.length < 32) (hh : cs.all isHex = true) :
    arpaToIP lowerRune (dotted (singles cs) ++ '.' :: ip6Arpa)
        = (some (packNibbles (cs.reverse.map nibbleVal ++ List.replicate (32 - cs.length) 0)),
            true) ∧
      arpaToIP lowerRune (dotted (singles cs) ++ '.' :: ip6Arpa)
        = arpaToIP lowerRune
            (dotted (singles (List.replicate (32 - cs.length) '0' ++ cs)) ++ '.' :: ip6Arpa) := by
  have hne : cs ≠ [] := by
    intro h
    rw [h] at h1
    simp at h1
  have e1 := arpaToIP_nibble_labels lowerRune cs hne (by omega) hh [] (Or.inl rfl)
  rw [List.append_nil] at e1
  have hh2 : (List.replicate (32 - cs.length) '0' ++ cs).all isHex = true := by
    rw [List.all_append, hh, Bool.and_true, List.all_eq_true]
    intro c hc
    rw [List.eq_of_mem_replicate hc]
    decide
  have hlen2 : (List.replicate (32 - cs.length) '0' ++ cs).length = 32 := by
    simp
    omega
  have hne2 : List.replicate (32 - cs.length) '0' ++ cs ≠ [] := by
    simp [hne]
  have e2 := arpaToIP_nibble_labels lowerRune _ hne2 (by omega) hh2 [] (Or.inl rfl)
  rw [List.append_nil, hlen2] at e2
  have hz : nibbleVal '0' = 0 := by decide
  refine ⟨e1, ?_⟩
  rw [e1, e2]
  simp [hz]

theorem arpaToIP_partial_nibbles_witness :
    arpaToIP id (dotted (singles ['8', 'B', 'd', '0', '1', '0', '0', '2']) ++ '.' :: ip6Arpa)
        = (some (packNibbles ((['8', 'B', 'd', '0', '1', '0', '0', '2'] : Str).reverse.map nibbleVal
            ++ List.replicate (32 - 8) 0)), true) ∧
      arpaToIP id (dotted (singles ['8', 'B', 'd', '0', '1', '0', '0', '2']) ++ '.' :: ip6Arpa)
        = arpaToIP id
            (dotted (singles (List.replicate (32 - 8) '0' ++ ['8', 'B', 'd', '0', '1', '0', '0', '2']))
              ++ '.' :: ip6Arpa) :=
  arpaToIP_partial_nibbles id ['8', 'B', 'd', '0', '1', '0', '0', '2'] (by decide) (by decide)
    (by decide)

theorem exists_singles (ls : List Str) (h : ∀ l ∈ ls, ∃ c, l = [c] ∧ isHex c = true) :
    ∃ cs : Str, ls = singles cs ∧ cs.all isHex = true := by
  induction ls with
  | nil => exact ⟨[], rfl, rfl⟩
  | cons l r ih =>
    obtain ⟨c, rfl, hc⟩ := h l (by simp)
    obtain ⟨cs, rfl, hcs⟩ := ih (fun m hm => h m (by simp [hm]))
    exact ⟨c :: cs, by simp [singles], by simp [hc, hcs]⟩

theorem all_isHex_zeros (n : Nat) : (List.replicate n '0').all isHex = true := by
  rw [List.all_eq_true]
  intro c hc
  rw [List.eq_of_mem_replicate hc]
  decide

/-- When the `ip6.arpa` branch reports `found`: exactly when the labels are
between one and thirty-two and each is one hexadecimal digit. -/
theorem v6_found_iff (part : Str) :
    (arpaToIP.v6 part).2 = true ↔
      1 ≤ (Split part '.').length ∧ (Split part '.').length ≤ 32 ∧
        ∀ l ∈ Split part '.', ∃ c, l = [c] ∧ isHex c = true := by
  constructor
  · intro hf
    have hlen : ¬ ((Split part '.').length = 0 ∨ (Split part '.').length > 32) := by
      intro hbad
      simp only [arpaToIP.v6, if_pos hbad] at hf
      exact Bool.false_ne_true hf
    cases hb : buildHex (Split part '.').reverse with
    | none =>
      simp only [arpaToIP.v6, if_neg hlen, hb] at hf
      exact absurd hf Bool.false_ne_true
    | some hex =>
      obtain ⟨cs, hcs, ha⟩ := buildHex_some _ _ hb
      have hsp : Split part '.' = singles cs.reverse := by
        rw [← singles_reverse, ← hcs, List.reverse_reverse]
      have hl : cs.length = (Split part '.').length := by
        rw [hsp, singles_length, List.length_reverse]
      have har : ∀ c ∈ cs.reverse, c.toNat < 128 := fun c hc => ha c (List.mem_reverse.1 hc)
      rw [v6_eval part cs.reverse hsp har (by rw [List.length_reverse]; omega)] at hf
      have hsome : parseIPv6Hex (cs.reverse.reverse
          ++ List.replicate (32 - cs.reverse.length) '0') ≠ none := by
        intro hn
        rw [hn] at hf
        simp at hf
      have hall := parseIPv6Hex_some _ (by
        intro c hc
        rcases List.mem_append.1 hc with h | h
        · exact ha c (by simpa using h)
        · rw [List.eq_of_mem_replicate h]
          decide) (by simp; omega) hsome
      rw [List.all_append, Bool.and_eq_true, List.reverse_reverse] at hall
      refine ⟨by omega, by omega, ?_⟩
      intro l hl2
      rw [hsp] at hl2
      simp only [singles, List.mem_map, List.mem_reverse] at hl2
      obtain ⟨c, hc, rfl⟩ := hl2
      exact ⟨c, rfl, List.all_eq_true.1 hall.1 c hc⟩
  · rintro ⟨h1, h2, h3⟩
    obtain ⟨cs, hcs, hh⟩ := exists_singles _ h3
    have hl : cs.length = (Split part '.').length := by rw [hcs, singles_length]
    rw [v6_eval part cs hcs (all_isHex_ascii cs hh) (by omega),
      parseIPv6Hex_hex _ (by simp; omega) (by
        rw [List.all_append, List.all_reverse, hh, all_isHex_zeros]
        rfl)]

/-- Claim C6: for a query name whose normalized form ends with `.ip6.arpa`,
`arpaToIP` reports `found = true` exactly when the part before that suffix
splits on `.` into between 1 and 32 labels, each of them one hexadecimal
character. -/
theorem arpaToIP_ip6_found_iff (lowerRune : Char → Char) (q : Str)
    (h : HasSuffix (normalize lowerRune q) ('.' :: ip6Arpa) = true) :
    (arpaToIP lowerRune q).2 = true ↔
      1 ≤ (Split (TrimSuffix (normalize lowerRune q) ('.' :: ip6Arpa)) '.').length ∧
        (Split (TrimSuffix (normalize lowerRune q) ('.' :: ip6Arpa)) '.').length ≤ 32 ∧
        ∀ l ∈ Split (TrimSuffix (normalize lowerRune q) ('.' :: ip6Arpa)) '.',
          ∃ c, l = [c] ∧ isHex c = true := by
  rw [arpaToIP_of_ip6 lowerRune q _ (HasSuffix_eq_append _ _ h)]
  exact v6_found_iff _

theorem arpaToIP_ip6_found_iff_witness :
    (arpaToIP id "8.b.d.0.1.0.0.2.ip6.arpa.".toList).2 = true ↔
      1 ≤ (Split (TrimSuffix (normalize id "8.b.d.0.1.0.0.2.ip6.arpa.".toList)
            ('.' :: ip6Arpa)) '.').length ∧
        (Split (TrimSuffix (normalize id "8.b.d.0.1.0.0.2.ip6.arpa.".toList)
            ('.' :: ip6Arpa)) '.').length ≤ 32 ∧
        ∀ l ∈ Split (TrimSuffix (normalize id "8.b.d.0.1.0.0.2.ip6.arpa.".toList)
            ('.' :: ip6Arpa)) '.',
          ∃ c, l = [c] ∧ isHex c = true :=
  arpaToIP_ip6_found_iff id "8.b.d.0.1.0.0.2.ip6.arpa.".toList (by decide)

/-! ## ASCII names; the label and suffix checks -/

theorem mem_of_mem_TrimSpace (s : Str) (c : Char) (h : c ∈ TrimSpace s) : c ∈ s := by
  unfold TrimSpace at h
  rw [List.mem_reverse] at h
  have h1 := (List.dropWhile_suffix isSpace).subset h
  rw [List.mem_reverse] at h1
  exact (List.dropWhile_suffix isSpace).subset h1

theorem ToLower_ascii (lowerRune : Char → Char) (s : Str) (h : ∀ c ∈ s, c.toNat < 128) :
    ToLower lowerRune s = ToLower id s := by
  unfold ToLower
  apply List.map_congr_left
  intro c hc
  exact toLowerRune_ascii lowerRune c (h c hc)

theorem normalize_ascii (lowerRune : Char → Char) (q : Str) (h : ∀ c ∈ q, c.toNat < 128) :
    normalize lowerRune q = normalize id q := by
  unfold normalize
  rw [ToLower_ascii lowerRune _ (fun c hc => h c (mem_of_mem_TrimSpace q c hc))]

/-- On an ASCII name the table for the other runes plays no part. -/
theorem arpaToIP_ascii (lowerRune : Char → Char) (q : Str) (h : ∀ c ∈ q, c.toNat < 128) :
    arpaToIP lowerRune q = arpaToIP id q := by
  simp only [arpaToIP, normalize_ascii lowerRune q h]

/-- Claim C3, evaluated at `4.3.2.::1.in-addr.arpa`: the normalized name ends in
`in-addr.arpa`, `net.ParseIP` accepts `::1.2.3.4` as an IPv6 address, `To4` of
it is nil, and `arpaToIP` returns that nil address with `found = true`. -/
theorem arpaToIP_nil_found (lowerRune : Char → Char) :
    HasSuffix (normalize lowerRune "4.3.2.::1.in-addr.arpa".toList) inAddrArpa = true ∧
      ParseIP (utf8 "::1.2.3.4".toList) = some [0, 0, 0, 0, 0, 0, 0, 0, 0, 0, 0, 0, 1, 2, 3, 4] ∧
      To4 [0, 0, 0, 0, 0, 0, 0, 0, 0, 0, 0, 0, 1, 2, 3, 4] = none ∧
      arpaToIP lowerRune "4.3.2.::1.in-addr.arpa".toList = (none, true) := by
  rw [normalize_ascii lowerRune _ (by decide), arpaToIP_ascii lowerRune _ (by decide)]
  decide

/-- Claim C4, evaluated at `4.3.2.::ffff:1.in-addr.arpa`: the normalized name
ends with `.in-addr.arpa` and has four labels before it, the label `::ffff:1`
is not a decimal number, and `arpaToIP` returns `1.2.3.4` with `found = true`. -/
theorem arpaToIP_nondecimal_label_found (lowerRune : Char → Char) :
    HasSuffix (normalize lowerRune "4.3.2.::ffff:1.in-addr.arpa".toList) ('.' :: inAddrArpa)
        = true ∧
      Split (TrimSuffix (normalize lowerRune "4.3.2.::ffff:1.in-addr.arpa".toList)
          ('.' :: inAddrArpa)) '.'
        = ["4".toList, "3".toList, "2".toList, "::ffff:1".toList] ∧
      "::ffff:1".toList.all isDigit = false ∧
      arpaToIP lowerRune "4.3.2.::ffff:1.in-addr.arpa".toList = (some [1, 2, 3, 4], true) := by
  rw [normalize_ascii lowerRune _ (by decide), arpaToIP_ascii lowerRune _ (by decide)]
  decide

/-- Claim C7: for a query name whose normalized form ends with `.in-addr.arpa`,
if the part before that suffix does not split on `.` into exactly four labels,
`arpaToIP` returns nil and `found = false`. -/
theorem arpaToIP_inAddr_label_count (lowerRune : Char → Char) (q : Str)
    (h : HasSuffix (normalize lowerRune q) ('.' :: inAddrArpa) = true)
    (hlen : (Split (TrimSuffix (normalize lowerRune q) ('.' :: inAddrArpa)) '.').length ≠ 4) :
    arpaToIP lowerRune q = (none, false) := by
  rw [arpaToIP_of_inAddr lowerRune q _ (HasSuffix_eq_append _ _ h)]
  unfold arpaToIP.v4
  split
  · rename_i heq
    rw [heq] at hlen
    simp at hlen
  · rfl

theorem arpaToIP_inAddr_label_count_witness :
    arpaToIP id "3.2.1.in-addr.arpa".toList = (none, false) ∧
      arpaToIP id "5.4.3.2.1.in-addr.arpa.".toList = (none, false) :=
  ⟨arpaToIP_inAddr_label_count id "3.2.1.in-addr.arpa".toList (by decide) (by decide),
    arpaToIP_inAddr_label_count id "5.4.3.2.1.in-addr.arpa.".toList (by decide) (by decide)⟩

/-- Claim C8: for a query name whose normalized form (trimmed, lower-cased, one
trailing dot removed) ends with neither `in-addr.arpa` nor `ip6.arpa`,
`arpaToIP` returns nil and `found = false`. -/
theorem arpaToIP_no_suffix (lowerRune : Char → Char) (q : Str)
    (h4 : HasSuffix (normalize lowerRune q) inAddrArpa = false)
    (h6 : HasSuffix (normalize lowerRune q) ip6Arpa = false) :
    arpaToIP lowerRune q = (none, false) := by
  simp [arpaToIP, h4, h6]

theorem arpaToIP_no_suffix_witness : arpaToIP id "foo.bar.".toList = (none, false) :=
  arpaToIP_no_suffix id "foo.bar.".toList (by decide) (by decide)

/-! ## Case and white space -/

theorem toUpperRune_ascii (upperRune : Char → Char) (c : Char) (h : c.toNat < 128) :
    toUpperRune upperRune c = toUpperRune id c := by
  simp [toUpperRune, h]

set_option maxRecDepth 100000 in
theorem ascii_case_table : ∀ n < 128,
    isSpace (toUpperRune id (Char.ofNat n)) = isSpace (Char.ofNat n) ∧
      isSpace (toLowerRune id (Char.ofNat n)) = isSpace (Char.ofNat n) ∧
      toLowerRune id (toUpperRune id (Char.ofNat n)) = toLowerRune id (Char.ofNat n) ∧
      toLowerRune id (toLowerRune id (Char.ofNat n)) = toLowerRune id (Char.ofNat n) ∧
      ((toLowerRune id (Char.ofNat n) = '.') → Char.ofNat n = '.') ∧
      (toLowerRune id (Char.ofNat n)).toNat < 128 ∧
      (toUpperRune id (Char.ofNat n)).toNat < 128 := by
  decide

/-- Case mapping on one ASCII rune: it keeps white space and non-space apart,
lower-casing undoes upper-casing and is idempotent, and only `.` becomes `.`. -/
theorem ascii_case (lowerRune upperRune : Char → Char) (c : Char) (h : c.toNat < 128) :
    isSpace (toUpperRune upperRune c) = isSpace c ∧
      isSpace (toLowerRune lowerRune c) = isSpace c ∧
      toLowerRune lowerRune (toUpperRune upperRune c) = toLowerRune lowerRune c ∧
      toLowerRune lowerRune (toLowerRune lowerRune c) = toLowerRune lowerRune c ∧
      ((toLowerRune lowerRune c = '.') → c = '.') := by
  have e : Char.ofNat c.toNat = c := Char.ofNat_toNat c
  have t := ascii_case_table c.toNat h
  rw [e] at t
  obtain ⟨t1, t2, t3, t4, t5, t6, t7⟩ := t
  rw [toUpperRune_ascii upperRune c h, toLowerRune_ascii lowerRune c h,
    toLowerRune_ascii lowerRune _ t6, toLowerRune_ascii lowerRune _ t7]
  exact ⟨t1, t2, t3, t4, t5⟩

theorem dropWhile_map_of (p : Char → Bool) (f : Char → Char) (s : Str)
    (h : ∀ c ∈ s, p (f c) = p c) : (s.map f).dropWhile p = (s.dropWhile p).map f := by
  induction s with
  | nil => rfl
  | cons c r ih =>
    have hc := h c (by simp)
    have hr := ih (fun d hd => h d (by simp [hd]))
    simp only [List.map_cons, List.dropWhile_cons, hc]
    split
    · exact hr
    · rfl

theorem TrimSpace_map (f : Char → Char) (s : Str) (h : ∀ c ∈ s, isSpace (f c) = isSpace c) :
    TrimSpace (s.map f) = (TrimSpace s).map f := by
  unfold TrimSpace
  rw [dropWhile_map_of isSpace f s h, ← List.map_reverse, dropWhile_map_of isSpace f _ (by
    intro c hc
    rw [List.mem_reverse] at hc
    exact h c ((List.dropWhile_suffix isSpace).subset hc)), List.map_reverse]

/-- Claim C9: decoding is case-insensitive. For every ASCII query name `q`,
`arpaToIP` gives the same address and flag on `q`, on its lower-case form and
on its upper-case form. -/
theorem arpaToIP_case_insensitive (lowerRune upperRune : Char → Char) (q : Str)
    (h : ∀ c ∈ q, c.toNat < 128) :
    arpaToIP lowerRune (ToLower lowerRune q) = arpaToIP lowerRune q ∧
      arpaToIP lowerRune (ToUpper upperRune q) = arpaToIP lowerRune q := by
  have ht : ∀ c ∈ TrimSpace q, c.toNat < 128 := fun c hc => h c (mem_of_mem_TrimSpace q c hc)
  have h1 : normalize lowerRune (ToLower lowerRune q) = normalize lowerRune q := by
    unfold normalize ToLower
    rw [TrimSpace_map _ q (fun c hc => (ascii_case lowerRune upperRune c (h c hc)).2.1),
      List.map_map]
    congr 1
    apply List.map_congr_left
    intro c hc
    exact (ascii_case lowerRune upperRune c (ht c hc)).2.2.2.1
  have h2 : normalize lowerRune (ToUpper upperRune q) = normalize lowerRune q := by
    unfold normalize ToLower ToUpper
    rw [TrimSpace_map _ q (fun c hc => (ascii_case lowerRune upperRune c (h c hc)).1),
      List.map_map]
    congr 1
    apply List.map_congr_left
    intro c hc
    exact (ascii_case lowerRune upperRune c (ht c hc)).2.2.1
  simp only [arpaToIP, h1, h2, and_self]

theorem arpaToIP_case_insensitive_witness :
    arpaToIP id (ToLower id " 5.0.0.10.In-Addr.ARPA. ".toList)
        = arpaToIP id " 5.0.0.10.In-Addr.ARPA. ".toList ∧
      arpaToIP id (ToUpper id " 5.0.0.10.In-Addr.ARPA. ".toList)
        = arpaToIP id " 5.0.0.10.In-Addr.ARPA. ".toList :=
  arpaToIP_case_insensitive id id " 5.0.0.10.In-Addr.ARPA. ".toList (by decide)

theorem dropWhile_all_true (p : Char → Bool) (w : Str) (h : ∀ c ∈ w, p c = true) :
    w.dropWhile p = [] := by
  induction w with
  | nil => rfl
  | cons c r ih =>
    simp [List.dropWhile_cons, h c (by simp), ih (fun d hd => h d (by simp [hd]))]

theorem dropWhile_append_left (p : Char → Bool) (w r : Str) (h : ∀ c ∈ w, p c = true) :
    (w ++ r).dropWhile p = r.dropWhile p := by
  induction w with
  | nil => rfl
  | cons c t ih =>
    simp [List.dropWhile_cons, h c (by simp), ih (fun d hd => h d (by simp [hd]))]

theorem dropWhile_append_right (p : Char → Bool) (s r : Str)
    (h : ∀ c ∈ r.head?, p c = false) :
    (s ++ r).dropWhile p = s.dropWhile p ++ r := by
  induction s with
  | nil => simpa using dropWhile_eq_self_of_head r h
  | cons c t ih =>
    simp only [List.cons_append, List.dropWhile_cons]
    split
    · exact ih
    · rfl

/-- White space around a name that neither begins nor ends with white space is
what `TrimSpace` removes. -/
theorem TrimSpace_pad (w1 s w2 : Str) (hw1 : ∀ c ∈ w1, isSpace c = true)
    (hw2 : ∀ c ∈ w2, isSpace c = true) (hh : ∀ c ∈ s.head?, isSpace c = false)
    (hl : ∀ c ∈ s.getLast?, isSpace c = false) : TrimSpace (w1 ++ s ++ w2) = s := by
  unfold TrimSpace
  rw [List.append_assoc, dropWhile_append_left _ _ _ hw1]
  cases s with
  | nil => simp [dropWhile_all_true _ _ hw2]
  | cons a t =>
    have : (a :: t ++ w2).dropWhile isSpace = a :: t ++ w2 :=
      dropWhile_eq_self_of_head _ (by simpa using hh)
    rw [this, List.reverse_append, dropWhile_append_left _ _ _ (by
      intro c hc
      exact hw2 c (List.mem_reverse.1 hc)), dropWhile_eq_self_of_head _ (by
      rw [List.head?_reverse]
      exact hl),
      List.reverse_reverse]

theorem HasSuffix_snoc_ne (x suffix : Str) (c d : Char) (hs : suffix.getLast? = some d)
    (h : d ≠ c) : HasSuffix (x ++ [c]) suffix = false := by
  rw [Bool.eq_false_iff]
  intro hsuf
  rw [HasSuffix_iff] at hsuf
  obtain ⟨t, ht⟩ := hsuf
  have hne : suffix ≠ [] := by
    intro e
    rw [e] at hs
    simp at hs
  have := congrArg List.getLast? ht
  rw [List.getLast?_append_of_ne_nil _ hne, hs] at this
  simp at this
  exact h this

theorem toLowerRune_eq_dot (lowerRune : Char → Char)
    (hlr : ∀ c : Char, 128 ≤ c.toNat → lowerRune c ≠ '.') (c : Char)
    (h : toLowerRune lowerRune c = '.') : c = '.' := by
  by_cases hc : c.toNat < 128
  · exact (ascii_case lowerRune id c hc).2.2.2.2 h
  · exfalso
    simp only [toLowerRune, hc, if_false] at h
    exact hlr c (by omega) h

theorem normalize_no_dot (lowerRune : Char → Char)
    (hlr : ∀ c : Char, 128 ≤ c.toNat → lowerRune c ≠ '.') (s : Str)
    (hh : ∀ c ∈ s.head?, isSpace c = false)
    (hl : ∀ c ∈ s.getLast?, isSpace c = false ∧ c ≠ '.') :
    normalize lowerRune s = ToLower lowerRune s := by
  have ht : TrimSpace s = s := TrimSpace_eq_self s hh (fun c hc => (hl c hc).1)
  unfold normalize
  rw [ht]
  apply TrimSuffix_of_not
  rw [Bool.eq_false_iff]
  intro hs
  rw [HasSuffix_iff] at hs
  obtain ⟨t, e⟩ := hs
  have e2 := congrArg List.getLast? e
  simp only [ToLower, List.getLast?_append_of_ne_nil t (List.cons_ne_nil '.' []),
    List.getLast?_singleton, List.getLast?_map] at e2
  cases hlast : s.getLast? with
  | none => simp [hlast] at e2
  | some c =>
    rw [hlast] at e2
    simp only [Option.map_some', Option.some.injEq] at e2
    exact (hl c (by simp [hlast])).2 (toLowerRune_eq_dot lowerRune hlr c e2.symm)

theorem ToLower_snoc_dot (lowerRune : Char → Char) (s : Str) :
    ToLower lowerRune (s ++ ['.']) = ToLower lowerRune s ++ ['.'] := by
  rw [ToLower_append, ToLower_plain lowerRune ['.'] (by decide)]

/-- A name followed by two dots normalizes to a name that ends with a dot. -/
theorem normalize_two_dots (lowerRune : Char → Char) (s : Str) :
    normalize lowerRune (s ++ ['.', '.'])
      = ToLower lowerRune (s.dropWhile isSpace) ++ ['.'] := by
  have h1 : (s ++ ['.', '.']).dropWhile isSpace = s.dropWhile isSpace ++ ['.', '.'] :=
    dropWhile_append_right isSpace s ['.', '.'] (by decide)
  have h2 : TrimSpace (s ++ ['.', '.']) = s.dropWhile isSpace ++ ['.', '.'] := by
    unfold TrimSpace
    rw [h1, dropWhile_eq_self_of_head _ (by
      rw [List.head?_reverse]
      simp
      decide), List.reverse_reverse]
  have h3 : s.dropWhile isSpace ++ ['.', '.'] = (s.dropWhile isSpace ++ ['.']) ++ ['.'] := by
    simp
  unfold normalize
  rw [h2, h3, ToLower_snoc_dot, ToLower_snoc_dot, TrimSuffix_append]

/-- Claim C10: normalization ignores surrounding white space and exactly one
trailing dot. For a name `s` that neither begins nor ends with white space and
does not end with `.`, and white-space strings `w1`, `w2`, `arpaToIP` gives the
same result on `w1 ++ s ++ w2`, on `w1 ++ s ++ "." ++ w2` and on `s`; and
`s ++ ".."` is not decodable. The table for runes outside ASCII is taken to map
none of them to `.`, as `unicode.ToLower` does. -/
theorem arpaToIP_trim (lowerRune : Char → Char)
    (hlr : ∀ c : Char, 128 ≤ c.toNat → lowerRune c ≠ '.') (s w1 w2 : Str)
    (hw1 : ∀ c ∈ w1, isSpace c = true) (hw2 : ∀ c ∈ w2, isSpace c = true)
    (hh : ∀ c ∈ s.head?, isSpace c = false)
    (hl : ∀ c ∈ s.getLast?, isSpace c = false ∧ c ≠ '.') :
    arpaToIP lowerRune (w1 ++ s ++ w2) = arpaToIP lowerRune s ∧
      arpaToIP lowerRune (w1 ++ s ++ '.' :: w2) = arpaToIP lowerRune s ∧
      (arpaToIP lowerRune (s ++ ['.', '.'])).2 = false := by
  have hl1 : ∀ c ∈ s.getLast?, isSpace c = false := fun c hc => (hl c hc).1
  have hs : normalize lowerRune s = ToLower lowerRune s := normalize_no_dot lowerRune hlr s hh hl
  have n1 : normalize lowerRune (w1 ++ s ++ w2) = normalize lowerRune s := by
    unfold normalize
    rw [TrimSpace_pad w1 s w2 hw1 hw2 hh hl1, TrimSpace_eq_self s hh hl1]
  have n2 : normalize lowerRune (w1 ++ s ++ '.' :: w2) = normalize lowerRune s := by
    have e : w1 ++ s ++ '.' :: w2 = w1 ++ (s ++ ['.']) ++ w2 := by simp
    have hh2 : ∀ c ∈ (s ++ ['.']).head?, isSpace c = false := by
      cases s with
      | nil => simp; decide
      | cons a t => simpa using hh
    have hl2 : ∀ c ∈ (s ++ ['.']).getLast?, isSpace c = false := by
      simp
      decide
    rw [hs]
    unfold normalize
    rw [e, TrimSpace_pad w1 (s ++ ['.']) w2 hw1 hw2 hh2 hl2, ToLower_snoc_dot, TrimSuffix_append]
  have n3 := normalize_two_dots lowerRune s
  have s4 : HasSuffix (ToLower lowerRune (s.dropWhile isSpace) ++ ['.']) inAddrArpa = false :=
    HasSuffix_snoc_ne _ _ '.' 'a' (by decide) (by decide)
  have s6 : HasSuffix (ToLower lowerRune (s.dropWhile isSpace) ++ ['.']) ip6Arpa = false :=
    HasSuffix_snoc_ne _ _ '.' 'a' (by decide) (by decide)
  refine ⟨?_, ?_, ?_⟩
  · simp only [arpaToIP, n1]
  · simp only [arpaToIP, n2]
  · simp [arpaToIP, n3, s4, s6]

theorem arpaToIP_trim_witness :
    arpaToIP id ("  ".toList ++ "5.0.0.10.in-addr.arpa".toList ++ " ".toList)
        = arpaToIP id "5.0.0.10.in-addr.arpa".toList ∧
      arpaToIP id ("  ".toList ++ "5.0.0.10.in-addr.arpa".toList ++ '.' :: " ".toList)
        = arpaToIP id "5.0.0.10.in-addr.arpa".toList ∧
      (arpaToIP id ("5.0.0.10.in-addr.arpa".toList ++ ['.', '.'])).2 = false :=
  arpaToIP_trim id (fun c hc (h : c = '.') => by
      subst h
      exact absurd hc (by decide))
    "5.0.0.10.in-addr.arpa".toList "  ".toList " ".toList (by decide) (by decide)
    (by decide) (by decide)

/-! ## `resolvePTR` -/

theorem resolvePTR_addrs_eq (qname ipStr hostShort zone : Str) (addrs : List Str)
    (answer : List PTR) :
    resolvePTR.addrs qname ipStr hostShort zone addrs answer
      = answer ++ (addrs.filter (fun a => a == ipStr)).map
          (fun _ => ptrRecord qname hostShort zone) := by
  induction addrs generalizing answer with
  | nil => simp [resolvePTR.addrs]
  | cons a rest ih =>
    by_cases h : a = ipStr
    · simp [resolvePTR.addrs, h, ih, ptrRecord]
    · simp [resolvePTR.addrs, h, ih]

theorem resolvePTR_key_eq (qname ipStr hostShort zone : Str) (rrmap : RRMap) (key : Str)
    (answer : List PTR) :
    (match rrmap key with
      | some addrs => resolvePTR.addrs qname ipStr hostShort zone addrs answer
      | none => answer)
      = answer ++ ((addrsOf rrmap key).filter (fun a => a == ipStr)).map
          (fun _ => ptrRecord qname hostShort zone) := by
  unfold addrsOf
  cases rrmap key with
  | none => simp
  | some addrs => simp [resolvePTR_addrs_eq]

/-- The loops of `resolvePTR` append exactly the answers the spec asks for. -/
theorem resolvePTR_hosts_eq (qname ipStr zone : Str) (entries : Entries) (answer : List PTR) :
    resolvePTR.hosts qname ipStr zone entries answer
      = answer ++ expectedAnswers qname ipStr zone entries := by
  induction entries generalizing answer with
  | nil => simp [resolvePTR.hosts, expectedAnswers]
  | cons e rest ih =>
    obtain ⟨hostShort, rrmap⟩ := e
    simp only [resolvePTR.hosts, resolvePTR_key_eq, ih]
    simp [expectedAnswers, matchesOf, List.append_assoc]

/-- What `resolvePTR` returns on a decodable name. -/
theorem resolvePTR_of_found (lowerRune : Char → Char) (zone : Str) (entries : Entries)
    (q : Str) (answer : List PTR) (ip : Option (List Nat))
    (h : arpaToIP lowerRune q = (ip, true)) :
    resolvePTR lowerRune zone entries q answer
      = answer ++ expectedAnswers q (IPString ip) (effectiveZone zone) entries := by
  simp only [resolvePTR, h, resolvePTR_hosts_eq]

/-- What `resolvePTR` returns on a name that is not decodable. -/
theorem resolvePTR_of_not_found (lowerRune : Char → Char) (zone : Str) (entries : Entries)
    (q : Str) (answer : List PTR) (h : (arpaToIP lowerRune q).2 = false) :
    resolvePTR lowerRune zone entries q answer = answer := by
  unfold resolvePTR
  cases hq : arpaToIP lowerRune q with
  | mk ip found =>
    rw [hq] at h
    simp only at h
    subst h
    rfl

/-- The answers appended do not depend on the answers already present. -/
theorem resolvePTR_append (lowerRune : Char → Char) (zone : Str) (entries : Entries)
    (q : Str) (answer : List PTR) :
    resolvePTR lowerRune zone entries q answer
      = answer ++ resolvePTR lowerRune zone entries q [] := by
  cases hq : arpaToIP lowerRune q with
  | mk ip found =>
    cases found with
    | false =>
      rw [resolvePTR_of_not_found _ _ _ _ _ (by rw [hq]),
        resolvePTR_of_not_found _ _ _ _ _ (by rw [hq])]
      simp
    | true =>
      rw [resolvePTR_of_found _ _ _ _ _ ip hq, resolvePTR_of_found _ _ _ _ _ ip hq]
      simp

/-- Claim C12: for a query name on which `arpaToIP` reports `found = false`,
every zone, host table and existing answer list, `resolvePTR` leaves the answer
list exactly as it was. -/
theorem resolvePTR_not_found_unchanged (lowerRune : Char → Char) (zone : Str)
    (entries : Entries) (q : Str) (answer : List PTR)
    (h : (arpaToIP lowerRune q).2 = false) :
    resolvePTR lowerRune zone entries q answer = answer :=
  resolvePTR_of_not_found lowerRune zone entries q answer h

theorem resolvePTR_not_found_unchanged_witness :
    (arpaToIP id "foo.bar.".toList).2 = false ∧
      resolvePTR id "example.com.".toList
          [("web".toList, mkRRMap (some ["10.0.0.5".toList]) none)] "foo.bar.".toList
          [ptrRecord "x.".toList "old".toList "example.com.".toList]
        = [ptrRecord "x.".toList "old".toList "example.com.".toList] :=
  ⟨by decide, resolvePTR_not_found_unchanged id _ _ _ _ (by decide)⟩

theorem matchesOf_eq_nil (ipStr : Str) (rrmap : RRMap)
    (h : ipStr ∉ addrsOf rrmap keyA ∧ ipStr ∉ addrsOf rrmap keyAAAA) :
    matchesOf ipStr rrmap = [] := by
  unfold matchesOf
  rw [List.append_eq_nil, List.filter_eq_nil_iff, List.filter_eq_nil_iff]
  constructor
  · intro a ha hb
    have : a = ipStr := by simpa using hb
    exact h.1 (this ▸ ha)
  · intro a ha hb
    have : a = ipStr := by simpa using hb
    exact h.2 (this ▸ ha)

theorem expectedAnswers_eq_nil (qname ipStr zone : Str) (entries : Entries)
    (h : ∀ e ∈ entries, ipStr ∉ addrsOf e.2 keyA ∧ ipStr ∉ addrsOf e.2 keyAAAA) :
    expectedAnswers qname ipStr zone entries = [] := by
  unfold expectedAnswers
  rw [List.flatMap_eq_nil_iff]
  intro e he
  rw [matchesOf_eq_nil ipStr e.2 (h e he)]
  rfl

/-- Claim C17: for a decodable query name and a host table in which no string
under any host's `A` or `AAAA` key equals the textual form of the decoded
address (absent keys and empty lists included), `resolvePTR` appends nothing. -/
theorem resolvePTR_no_match (lowerRune : Char → Char) (zone : Str) (entries : Entries)
    (q : Str) (answer : List PTR) (ip : Option (List Nat))
    (h : arpaToIP lowerRune q = (ip, true))
    (hno : ∀ e ∈ entries,
      IPString ip ∉ addrsOf e.2 keyA ∧ IPString ip ∉ addrsOf e.2 keyAAAA) :
    resolvePTR lowerRune zone entries q answer = answer := by
  rw [resolvePTR_of_found lowerRune zone entries q answer ip h,
    expectedAnswers_eq_nil _ _ _ _ hno, List.append_nil]

theorem resolvePTR_no_match_witness :
    resolvePTR id "example.com.".toList
        [("web".toList, mkRRMap (some ["10.0.0.6".toList]) (some [])),
          ("db".toList, mkRRMap none none), ("bad".toList, mkRRMap (some ["10.0.0.05".toList]) none)]
        "5.0.0.10.in-addr.arpa.".toList [] = [] :=
  resolvePTR_no_match id _ _ _ _ (some [10, 0, 0, 5]) (by decide) (by
    intro e he
    simp only [List.mem_cons, List.mem_singleton, List.not_mem_nil, or_false] at he
    rcases he with rfl | rfl | rfl <;> decide)

/-- Claim C18: matching is order-independent across hosts. For host tables that
are permutations of one another, the answers `resolvePTR` appends are
permutations of one another; the answers appended are those it returns on an
empty answer list, whatever the list held before. -/
theorem resolvePTR_perm (lowerRune : Char → Char) (zone : Str) (entries1 entries2 : Entries)
    (q : Str) (hp : entries1.Perm entries2) :
    (resolvePTR lowerRune zone entries1 q []).Perm (resolvePTR lowerRune zone entries2 q []) ∧
      ∀ answer : List PTR,
        resolvePTR lowerRune zone entries1 q answer
            = answer ++ resolvePTR lowerRune zone entries1 q [] ∧
          resolvePTR lowerRune zone entries2 q answer
            = answer ++ resolvePTR lowerRune zone entries2 q [] := by
  refine ⟨?_, fun answer => ⟨resolvePTR_append _ _ _ _ _, resolvePTR_append _ _ _ _ _⟩⟩
  cases hq : arpaToIP lowerRune q with
  | mk ip found =>
    cases found with
    | false =>
      rw [resolvePTR_of_not_found _ _ _ _ _ (by rw [hq]),
        resolvePTR_of_not_found _ _ _ _ _ (by rw [hq])]
    | true =>
      rw [resolvePTR_of_found _ _ _ _ _ ip hq, resolvePTR_of_found _ _ _ _ _ ip hq]
      simp only [List.nil_append, expectedAnswers]
      exact List.Perm.flatMap_right _ hp

theorem resolvePTR_perm_witness :
    (resolvePTR id "example.com.".toList
        [("web".toList, mkRRMap (some ["10.0.0.5".toList]) none),
          ("db".toList, mkRRMap (some ["10.0.0.5".toList]) none)]
        "5.0.0.10.in-addr.arpa.".toList []).Perm
      (resolvePTR id "example.com.".toList
        [("db".toList, mkRRMap (some ["10.0.0.5".toList]) none),
          ("web".toList, mkRRMap (some ["10.0.0.5".toList]) none)]
        "5.0.0.10.in-addr.arpa.".toList []) :=
  (resolvePTR_perm id "example.com.".toList _ _ "5.0.0.10.in-addr.arpa.".toList
    (List.Perm.swap _ _ [])).1

theorem matchesOf_eq_filter (ipStr : Str) (rrmap : RRMap) :
    matchesOf ipStr rrmap = (allAddrs rrmap).filter (fun a => a == ipStr) := by
  simp [matchesOf, allAddrs, List.filter_append]

theorem matchesOf_length (ipStr : Str) (rrmap : RRMap) :
    (matchesOf ipStr rrmap).length = (allAddrs rrmap).count ipStr := by
  rw [matchesOf_eq_filter, List.count, List.countP_eq_length_filter]

theorem matchesOf_ne_nil_iff (ipStr : Str) (rrmap : RRMap) :
    matchesOf ipStr rrmap ≠ [] ↔ ipStr ∈ allAddrs rrmap := by
  rw [matchesOf_eq_filter, Ne, List.filter_eq_nil_iff]
  constructor
  · intro h
    by_contra hn
    apply h
    intro a ha hb
    have : a = ipStr := by simpa using hb
    exact hn (this ▸ ha)
  · intro h hall
    exact hall ipStr h (by simp)

theorem matchesOf_once (qname ipStr zone hostShort : Str) (rrmap : RRMap)
    (h : (allAddrs rrmap).count ipStr ≤ 1) :
    (matchesOf ipStr rrmap).map (fun _ => ptrRecord qname hostShort zone)
      = if ipStr ∈ allAddrs rrmap then [ptrRecord qname hostShort zone] else [] := by
  have hl := matchesOf_length ipStr rrmap
  have hne := matchesOf_ne_nil_iff ipStr rrmap
  match hm : matchesOf ipStr rrmap with
  | [] =>
    rw [hm] at hne
    have : ipStr ∉ allAddrs rrmap := fun hin => (hne.2 hin) rfl
    simp [this]
  | [x] =>
    rw [hm] at hne
    have : ipStr ∈ allAddrs rrmap := hne.1 (by simp)
    simp [this]
  | x :: y :: r =>
    rw [hm] at hl
    simp at hl
    omega

theorem expectedAnswers_once (qname ipStr zone : Str) (entries : Entries)
    (h : ∀ e ∈ entries, (allAddrs e.2).count ipStr ≤ 1) :
    expectedAnswers qname ipStr zone entries
      = (entries.filter (fun e => decide (ipStr ∈ allAddrs e.2))).map
          (fun e => ptrRecord qname e.1 zone) := by
  induction entries with
  | nil => rfl
  | cons e rest ih =>
    have h1 := h e (by simp)
    have h2 := ih (fun x hx => h x (by simp [hx]))
    unfold expectedAnswers at h2 ⊢
    rw [List.flatMap_cons, h2, matchesOf_once qname ipStr zone e.1 e.2 h1]
    by_cases hin : ipStr ∈ allAddrs e.2
    · simp [hin]
    · simp [hin]

/-- Claim C14: several host names sharing one address each get their own PTR
record. For a decodable name and an ordered host table in which every host
lists the textual form of the decoded address at most once (under `A` or
`AAAA`), `resolvePTR` appends exactly one answer for each host that lists it,
in table order, with target the host name followed by `.` and the effective
zone; their number is the number of such hosts. -/
theorem resolvePTR_shared_address (lowerRune : Char → Char) (zone : Str) (entries : Entries)
    (q : Str) (answer : List PTR) (ip : Option (List Nat))
    (h : arpaToIP lowerRune q = (ip, true))
    (honce : ∀ e ∈ entries, (allAddrs e.2).count (IPString ip) ≤ 1) :
    resolvePTR lowerRune zone entries q answer
        = answer ++ (entries.filter (fun e => decide (IPString ip ∈ allAddrs e.2))).map
            (fun e => ptrRecord q e.1 (effectiveZone zone)) ∧
      (resolvePTR lowerRune zone entries q []).length
        = entries.countP (fun e => decide (IPString ip ∈ allAddrs e.2)) := by
  have e1 := expectedAnswers_once q (IPString ip) (effectiveZone zone) entries honce
  constructor
  · rw [resolvePTR_of_found lowerRune zone entries q answer ip h, e1]
  · rw [resolvePTR_of_found lowerRune zone entries q [] ip h, e1, List.nil_append,
      List.length_map, List.countP_eq_length_filter]

theorem resolvePTR_shared_address_witness :
    (resolvePTR id "example.com.".toList
        [("web".toList, mkRRMap (some ["10.0.0.5".toList]) none),
          ("db".toList, mkRRMap (some ["10.0.0.5".toList]) none)]
        "5.0.0.10.in-addr.arpa.".toList []).map PTR.Ptr
      = ["web.example.com.".toList, "db.example.com.".toList] := by
  rw [(resolvePTR_shared_address id "example.com.".toList
    [("web".toList, mkRRMap (some ["10.0.0.5".toList]) none),
      ("db".toList, mkRRMap (some ["10.0.0.5".toList]) none)]
    "5.0.0.10.in-addr.arpa.".toList [] (some [10, 0, 0, 5]) (by decide) (by
      intro e he
      simp only [List.mem_cons, List.mem_singleton, List.not_mem_nil, or_false] at he
      rcases he with rfl | rfl <;> decide)).1]
  decide

theorem mem_expectedAnswers (qname ipStr zone : Str) (entries : Entries) (r : PTR)
    (h : r ∈ expectedAnswers qname ipStr zone entries) :
    ∃ e ∈ entries, r = ptrRecord qname e.1 zone := by
  unfold expectedAnswers at h
  rw [List.mem_flatMap] at h
  obtain ⟨e, he, hr⟩ := h
  rw [List.mem_map] at hr
  obtain ⟨_, _, rfl⟩ := hr
  exact ⟨e, he, rfl⟩

/-- Every record `resolvePTR` appends is the record of some host of the table. -/
theorem mem_resolvePTR (lowerRune : Char → Char) (zone : Str) (entries : Entries) (q : Str)
    (r : PTR) (h : r ∈ resolvePTR lowerRune zone entries q []) :
    ∃ e ∈ entries, r = ptrRecord q e.1 (effectiveZone zone) := by
  cases hq : arpaToIP lowerRune q with
  | mk ip found =>
    cases found with
    | false =>
      rw [resolvePTR_of_not_found _ _ _ _ _ (by rw [hq])] at h
      simp at h
    | true =>
      rw [resolvePTR_of_found _ _ _ _ _ ip hq, List.nil_append] at h
      exact mem_expectedAnswers _ _ _ _ _ h

theorem HasSuffix_append_left (a b suffix : Str) (h : HasSuffix b suffix = true) :
    HasSuffix (a ++ b) suffix = true := by
  rw [HasSuffix_iff] at h ⊢
  exact h.trans (List.suffix_append a b)

theorem effectiveZone_empty : effectiveZone [] = ['l', 'o', 'c', 'a', 'l', '.'] := by
  decide

theorem effectiveZone_of_dot (zone : Str) (h : HasSuffix zone ['.'] = true) :
    effectiveZone zone = zone := by
  have hne : zone ≠ [] := by
    intro e
    rw [e] at h
    revert h
    decide
  simp [effectiveZone, hne, h]

theorem effectiveZone_of_no_dot (zone : Str) (hne : zone ≠ [])
    (h : HasSuffix zone ['.'] = false) : effectiveZone zone = zone ++ ['.'] := by
  simp [effectiveZone, hne, h]

theorem effectiveZone_hasSuffix (zone : Str) : HasSuffix (effectiveZone zone) ['.'] = true := by
  by_cases hne : zone = []
  · rw [hne]
    decide
  · cases h : HasSuffix zone ['.'] with
    | true => rw [effectiveZone_of_dot zone h, h]
    | false =>
      rw [effectiveZone_of_no_dot zone hne h]
      exact HasSuffix_append _ _

/-- The zone enters `resolvePTR` only through the effective zone. -/
theorem resolvePTR_congr_zone (lowerRune : Char → Char) (zone1 zone2 : Str) (entries : Entries)
    (q : Str) (answer : List PTR) (h : effectiveZone zone1 = effectiveZone zone2) :
    resolvePTR lowerRune zone1 entries q answer = resolvePTR lowerRune zone2 entries q answer := by
  simp only [resolvePTR, h]

/-- Claim C13: for a decodable query name, a zone, a host table as an ordered
list of entries and an existing answer list, the answer list after `resolvePTR`
is the existing list followed by, for each host in table order, one PTR record
for each string of its `A` list equal to the textual form of the decoded
address, then one for each such string of its `AAAA` list, each with target
`hostname ++ "." ++` the effective zone: `local.` for the empty zone, else the
zone with a trailing dot ensured. -/
theorem resolvePTR_appends_matches (lowerRune : Char → Char) (zone : Str) (entries : Entries)
    (q : Str) (answer : List PTR) (ip : Option (List Nat))
    (h : arpaToIP lowerRune q = (ip, true)) :
    resolvePTR lowerRune zone entries q answer
      = answer ++ expectedAnswers q (IPString ip) (specZone zone) entries := by
  have hz : effectiveZone zone = specZone zone := by
    cases hl : zone.getLast? with
    | none =>
      have hn : zone = [] := List.getLast?_eq_none_iff.1 hl
      subst hn
      decide
    | some c =>
      obtain ⟨ys, rfl⟩ := List.getLast?_eq_some_iff.1 hl
      by_cases hc : c = '.'
      · subst hc
        have hs : HasSuffix (ys ++ ['.']) ['.'] = true := HasSuffix_append ys ['.']
        simp [effectiveZone, specZone, hs]
      · have hs : HasSuffix (ys ++ [c]) ['.'] = false :=
          HasSuffix_snoc_ne ys ['.'] c '.' rfl (fun e => hc e.symm)
        simp [effectiveZone, specZone, hs, hc]
  simp only [resolvePTR, h, resolvePTR_hosts_eq, hz]

theorem resolvePTR_appends_matches_witness :
    resolvePTR id "example.com".toList
        [("web".toList, mkRRMap (some ["10.0.0.5".toList, "10.0.0.6".toList])
            (some ["10.0.0.5".toList])),
          ("db".toList, mkRRMap none (some ["fd00::5".toList])),
          ("gw".toList, mkRRMap (some ["10.0.0.5".toList]) none)]
        "5.0.0.10.in-addr.arpa.".toList
        [PTR.mk "x.".toList 12 1 60 "old.z.".toList]
      = [PTR.mk "x.".toList 12 1 60 "old.z.".toList,
          PTR.mk "5.0.0.10.in-addr.arpa.".toList 12 1 60 "web.example.com.".toList,
          PTR.mk "5.0.0.10.in-addr.arpa.".toList 12 1 60 "web.example.com.".toList,
          PTR.mk "5.0.0.10.in-addr.arpa.".toList 12 1 60 "gw.example.com.".toList] ∧
    [PTR.mk "x.".toList 12 1 60 "old.z.".toList] ++
        expectedAnswers "5.0.0.10.in-addr.arpa.".toList (IPString (some [10, 0, 0, 5]))
          (specZone "example.com".toList)
          [("web".toList, mkRRMap (some ["10.0.0.5".toList, "10.0.0.6".toList])
              (some ["10.0.0.5".toList])),
            ("db".toList, mkRRMap none (some ["fd00::5".toList])),
            ("gw".toList, mkRRMap (some ["10.0.0.5".toList]) none)]
      = [PTR.mk "x.".toList 12 1 60 "old.z.".toList,
          PTR.mk "5.0.0.10.in-addr.arpa.".toList 12 1 60 "web.example.com.".toList,
          PTR.mk "5.0.0.10.in-addr.arpa.".toList 12 1 60 "web.example.com.".toList,
          PTR.mk "5.0.0.10.in-addr.arpa.".toList 12 1 60 "gw.example.com.".toList] :=
  ⟨by decide,
    (resolvePTR_appends_matches id "example.com".toList
      [("web".toList, mkRRMap (some ["10.0.0.5".toList, "10.0.0.6".toList])
          (some ["10.0.0.5".toList])),
        ("db".toList, mkRRMap none (some ["fd00::5".toList])),
        ("gw".toList, mkRRMap (some ["10.0.0.5".toList]) none)]
      "5.0.0.10.in-addr.arpa.".toList [PTR.mk "x.".toList 12 1 60 "old.z.".toList]
      (some [10, 0, 0, 5]) (by decide)).symm.trans (by decide)⟩

/-- Claim C15 as stated fails for the empty zone: it does not end with `.`, yet
resolving with it (targets under `local.`) differs from resolving with `.`. -/
theorem resolvePTR_empty_zone_differs :
    HasSuffix [] ['.'] = false ∧
      resolvePTR id [] [("web".toList, mkRRMap (some ["10.0.0.5".toList]) none)]
          "5.0.0.10.in-addr.arpa.".toList []
        = [ptrRecord "5.0.0.10.in-addr.arpa.".toList "web".toList "local.".toList] ∧
      resolvePTR id ([] ++ ['.']) [("web".toList, mkRRMap (some ["10.0.0.5".toList]) none)]
          "5.0.0.10.in-addr.arpa.".toList []
        = [ptrRecord "5.0.0.10.in-addr.arpa.".toList "web".toList ".".toList] ∧
      resolvePTR id [] [("web".toList, mkRRMap (some ["10.0.0.5".toList]) none)]
          "5.0.0.10.in-addr.arpa.".toList []
        ≠ resolvePTR id ([] ++ ['.']) [("web".toList, mkRRMap (some ["10.0.0.5".toList]) none)]
          "5.0.0.10.in-addr.arpa.".toList [] := by
  decide

/-- Claim C15, amended: the zone used to build every PTR target is `local.` for
the empty zone, the zone itself when it ends with `.`, and the zone with one `.`
appended when it is non-empty and does not end with `.`: in each case the
answers of `resolvePTR` are the matches with targets `hostname ++ "."` followed
by that zone. So every target produced ends with `.`, the empty zone gives
targets `hostname ++ ".local."`, and resolving with a non-empty zone `z` that
does not end with `.` gives the same answers as resolving with `z ++ "."`. -/
theorem resolvePTR_effective_zone (lowerRune : Char → Char) (zone : Str) (entries : Entries)
    (q : Str) :
    (∀ answer : List PTR, resolvePTR lowerRune [] entries q answer
        = if (arpaToIP lowerRune q).2 = true then
            answer ++ expectedAnswers q (IPString (arpaToIP lowerRune q).1)
              ['l', 'o', 'c', 'a', 'l', '.'] entries
          else answer) ∧
      (HasSuffix zone ['.'] = true →
        ∀ answer : List PTR, resolvePTR lowerRune zone entries q answer
          = if (arpaToIP lowerRune q).2 = true then
              answer ++ expectedAnswers q (IPString (arpaToIP lowerRune q).1) zone entries
            else answer) ∧
      (zone ≠ [] → HasSuffix zone ['.'] = false →
        ∀ answer : List PTR, resolvePTR lowerRune zone entries q answer
          = if (arpaToIP lowerRune q).2 = true then
              answer ++ expectedAnswers q (IPString (arpaToIP lowerRune q).1)
                (zone ++ ['.']) entries
            else answer) ∧
      effectiveZone [] = ['l', 'o', 'c', 'a', 'l', '.'] ∧
      (HasSuffix zone ['.'] = true → effectiveZone zone = zone) ∧
      (zone ≠ [] → HasSuffix zone ['.'] = false → effectiveZone zone = zone ++ ['.']) ∧
      (∀ r ∈ resolvePTR lowerRune zone entries q [], HasSuffix r.Ptr ['.'] = true) ∧
      (∀ r ∈ resolvePTR lowerRune [] entries q [],
        ∃ e ∈ entries, r.Ptr = e.1 ++ ['.', 'l', 'o', 'c', 'a', 'l', '.']) ∧
      (zone ≠ [] → HasSuffix zone ['.'] = false → ∀ answer : List PTR,
        resolvePTR lowerRune zone entries q answer
          = resolvePTR lowerRune (zone ++ ['.']) entries q answer) := by
  have e0 : effectiveZone [] = ['l', 'o', 'c', 'a', 'l', '.'] := by decide
  have e1 : HasSuffix zone ['.'] = true → effectiveZone zone = zone := by
    intro h
    have hne : zone ≠ [] := by
      intro e
      rw [e] at h
      exact absurd h (by decide)
    simp [effectiveZone, hne, h]
  have e2 : zone ≠ [] → HasSuffix zone ['.'] = false → effectiveZone zone = zone ++ ['.'] := by
    intro hne h
    simp [effectiveZone, hne, h]
  have key : ∀ (z target : Str) (answer : List PTR), effectiveZone z = target →
      resolvePTR lowerRune z entries q answer
        = if (arpaToIP lowerRune q).2 = true then
            answer ++ expectedAnswers q (IPString (arpaToIP lowerRune q).1) target entries
          else answer := by
    intro z target answer hz
    cases hq : arpaToIP lowerRune q with
    | mk ip found =>
      cases found with
      | false => simp [resolvePTR, hq]
      | true => simp [resolvePTR, hq, resolvePTR_hosts_eq, hz]
  refine ⟨fun answer => key _ _ answer e0, fun h answer => key _ _ answer (e1 h),
    fun hne h answer => key _ _ answer (e2 hne h), e0, e1, e2, ?_, ?_, ?_⟩
  · intro r hr
    obtain ⟨e, _, rfl⟩ := mem_resolvePTR _ _ _ _ _ hr
    have : (ptrRecord q e.1 (effectiveZone zone)).Ptr = (e.1 ++ ['.']) ++ effectiveZone zone := by
      simp [ptrRecord]
    rw [this]
    exact HasSuffix_append_left _ _ _ (effectiveZone_hasSuffix zone)
  · intro r hr
    obtain ⟨e, he, rfl⟩ := mem_resolvePTR _ _ _ _ _ hr
    exact ⟨e, he, by simp [ptrRecord, effectiveZone_empty]⟩
  · intro hne h answer
    apply resolvePTR_congr_zone
    rw [effectiveZone_of_no_dot zone hne h, effectiveZone_of_dot _ (HasSuffix_append zone ['.'])]

theorem resolvePTR_effective_zone_witness :
    (resolvePTR id "example.com".toList
        [("web".toList, mkRRMap (some ["10.0.0.5".toList]) none)]
        "5.0.0.10.in-addr.arpa.".toList []
      = [PTR.mk "5.0.0.10.in-addr.arpa.".toList 12 1 60 "web.example.com.".toList] ∧
    resolvePTR id "example.com.".toList
        [("web".toList, mkRRMap (some ["10.0.0.5".toList]) none)]
        "5.0.0.10.in-addr.arpa.".toList []
      = [PTR.mk "5.0.0.10.in-addr.arpa.".toList 12 1 60 "web.example.com.".toList] ∧
    resolvePTR id []
        [("web".toList, mkRRMap (some ["10.0.0.5".toList]) none)]
        "5.0.0.10.in-addr.arpa.".toList []
      = [PTR.mk "5.0.0.10.in-addr.arpa.".toList 12 1 60 "web.local.".toList]) ∧
    (resolvePTR id "example.com".toList
        [("web".toList, mkRRMap (some ["10.0.0.5".toList]) none)]
        "5.0.0.10.in-addr.arpa.".toList []
      = [] ++ expectedAnswers "5.0.0.10.in-addr.arpa.".toList (IPString (some [10, 0, 0, 5]))
          ("example.com".toList ++ ['.'])
          [("web".toList, mkRRMap (some ["10.0.0.5".toList]) none)] ∧
    resolvePTR id "example.com.".toList
        [("web".toList, mkRRMap (some ["10.0.0.5".toList]) none)]
        "5.0.0.10.in-addr.arpa.".toList []
      = [] ++ expectedAnswers "5.0.0.10.in-addr.arpa.".toList (IPString (some [10, 0, 0, 5]))
          "example.com.".toList
          [("web".toList, mkRRMap (some ["10.0.0.5".toList]) none)] ∧
    resolvePTR id []
        [("web".toList, mkRRMap (some ["10.0.0.5".toList]) none)]
        "5.0.0.10.in-addr.arpa.".toList []
      = [] ++ expectedAnswers "5.0.0.10.in-addr.arpa.".toList (IPString (some [10, 0, 0, 5]))
          "local.".toList
          [("web".toList, mkRRMap (some ["10.0.0.5".toList]) none)]) ∧
    ∀ answer : List PTR,
      resolvePTR id "example.com".toList
          [("web".toList, mkRRMap (some ["10.0.0.5".toList]) none)]
          "5.0.0.10.in-addr.arpa.".toList answer
        = resolvePTR id ("example.com".toList ++ ['.'])
          [("web".toList, mkRRMap (some ["10.0.0.5".toList]) none)]
          "5.0.0.10.in-addr.arpa.".toList answer :=
  ⟨⟨by decide, by decide, by decide⟩,
    ⟨((resolvePTR_effective_zone id "example.com".toList
        [("web".toList, mkRRMap (some ["10.0.0.5".toList]) none)]
        "5.0.0.10.in-addr.arpa.".toList).2.2.1 (by decide) (by decide) []).trans (by decide),
      ((resolvePTR_effective_zone id "example.com.".toList
        [("web".toList, mkRRMap (some ["10.0.0.5".toList]) none)]
        "5.0.0.10.in-addr.arpa.".toList).2.1 (by decide) []).trans (by decide),
      ((resolvePTR_effective_zone id []
        [("web".toList, mkRRMap (some ["10.0.0.5".toList]) none)]
        "5.0.0.10.in-addr.arpa.".toList).1 []).trans (by decide)⟩,
    (resolvePTR_effective_zone id "example.com".toList
      [("web".toList, mkRRMap (some ["10.0.0.5".toList]) none)]
      "5.0.0.10.in-addr.arpa.".toList).2.2.2.2.2.2.2.2 (by decide) (by decide)⟩

theorem isSpace_toLowerRune (lowerRune : Char → Char)
    (hsp : ∀ c : Char, 128 ≤ c.toNat → isSpace (lowerRune c) = isSpace c) (c : Char) :
    isSpace (toLowerRune lowerRune c) = isSpace c := by
  by_cases hc : c.toNat < 128
  · exact (ascii_case lowerRune id c hc).2.1
  · simp only [toLowerRune, hc, if_false]
    exact hsp c (by omega)

/-- When lower-casing keeps white space and other runes apart, the normalized
name is a function of the lower-cased name. -/
theorem normalize_of_ToLower (lowerRune : Char → Char)
    (hsp : ∀ c : Char, 128 ≤ c.toNat → isSpace (lowerRune c) = isSpace c) (q : Str) :
    normalize lowerRune q = TrimSuffix (TrimSpace (ToLower lowerRune q)) ['.'] := by
  unfold normalize ToLower
  rw [TrimSpace_map _ q (fun c _ => isSpace_toLowerRune lowerRune hsp c)]

theorem arpaToIP_of_ToLower_eq (lowerRune : Char → Char)
    (hsp : ∀ c : Char, 128 ≤ c.toNat → isSpace (lowerRune c) = isSpace c) (q1 q2 : Str)
    (h : ToLower lowerRune q1 = ToLower lowerRune q2) :
    arpaToIP lowerRune q1 = arpaToIP lowerRune q2 := by
  have : normalize lowerRune q1 = normalize lowerRune q2 := by
    rw [normalize_of_ToLower lowerRune hsp q1, normalize_of_ToLower lowerRune hsp q2, h]
  simp only [arpaToIP, this]

theorem expectedAnswers_targets (q1 q2 ipStr zone : Str) (entries : Entries) :
    (expectedAnswers q1 ipStr zone entries).map PTR.Ptr
      = (expectedAnswers q2 ipStr zone entries).map PTR.Ptr := by
  induction entries with
  | nil => rfl
  | cons e rest ih =>
    unfold expectedAnswers at ih ⊢
    simp only [List.flatMap_cons, List.map_append, ih, List.map_map]
    rfl

/-- Claim C16: every record `resolvePTR` appends has the query name as passed
in as its owner name, type PTR, class Internet and TTL 60; so two query names
with the same lower-case form produce answers with the same targets, each
echoing its own spelling. Lower-casing of runes outside ASCII is taken to keep
white space and other runes apart, as `unicode.ToLower` does. -/
theorem resolvePTR_echoes_name (lowerRune : Char → Char)
    (hsp : ∀ c : Char, 128 ≤ c.toNat → isSpace (lowerRune c) = isSpace c)
    (zone : Str) (entries : Entries) (q1 q2 : Str)
    (hcase : ToLower lowerRune q1 = ToLower lowerRune q2) :
    (∀ answer : List PTR, resolvePTR lowerRune zone entries q1 answer
        = answer ++ resolvePTR lowerRune zone entries q1 []) ∧
      (∀ r ∈ resolvePTR lowerRune zone entries q1 [],
        r.Name = q1 ∧ r.Rrtype = TypePTR ∧ r.Class = ClassINET ∧ r.Ttl = 60) ∧
      (∀ r ∈ resolvePTR lowerRune zone entries q2 [],
        r.Name = q2 ∧ r.Rrtype = TypePTR ∧ r.Class = ClassINET ∧ r.Ttl = 60) ∧
      (resolvePTR lowerRune zone entries q1 []).map PTR.Ptr
        = (resolvePTR lowerRune zone entries q2 []).map PTR.Ptr := by
  refine ⟨fun answer => resolvePTR_append _ _ _ _ _, ?_, ?_, ?_⟩
  · intro r hr
    obtain ⟨e, _, rfl⟩ := mem_resolvePTR _ _ _ _ _ hr
    exact ⟨rfl, rfl, rfl, rfl⟩
  · intro r hr
    obtain ⟨e, _, rfl⟩ := mem_resolvePTR _ _ _ _ _ hr
    exact ⟨rfl, rfl, rfl, rfl⟩
  · have heq := arpaToIP_of_ToLower_eq lowerRune hsp q1 q2 hcase
    cases hq : arpaToIP lowerRune q1 with
    | mk ip found =>
      have hq2 : arpaToIP lowerRune q2 = (ip, found) := by rw [← heq, hq]
      cases found with
      | false =>
        rw [resolvePTR_of_not_found _ _ _ _ _ (by rw [hq]),
          resolvePTR_of_not_found _ _ _ _ _ (by rw [hq2])]
      | true =>
        rw [resolvePTR_of_found _ _ _ _ _ ip hq, resolvePTR_of_found _ _ _ _ _ ip hq2]
        simp only [List.nil_append]
        exact expectedAnswers_targets _ _ _ _ _

theorem resolvePTR_echoes_name_witness :
    (resolvePTR id "example.com.".toList
        [("web".toList, mkRRMap (some ["10.0.0.5".toList]) none)]
        "5.0.0.10.IN-ADDR.Arpa.".toList []).map PTR.Ptr
      = (resolvePTR id "example.com.".toList
        [("web".toList, mkRRMap (some ["10.0.0.5".toList]) none)]
        "5.0.0.10.in-addr.arpa.".toList []).map PTR.Ptr :=
  (resolvePTR_echoes_name id (fun _ _ => rfl) "example.com.".toList
    [("web".toList, mkRRMap (some ["10.0.0.5".toList]) none)]
    "5.0.0.10.IN-ADDR.Arpa.".toList "5.0.0.10.in-addr.arpa.".toList (by decide)).2.2.2

/-- Decoding the full reverse name of sixteen bytes gives the bytes back. -/
theorem arpaToIP_ip6Name (lowerRune : Char → Char) (x : List Nat) (hx : x.length = 16)
    (hb : ∀ b ∈ x, b < 256) (tail : Str) (ht : tail = [] ∨ tail = ['.']) :
    arpaToIP lowerRune (ip6Name x tail) = (some x, true) := by
  have hlt : ∀ n ∈ (nibbles x).reverse, n < 16 :=
    fun n hn => nibbles_lt x hb n (List.mem_reverse.1 hn)
  obtain ⟨h1, _⟩ := map_hexDigit _ hlt
  obtain ⟨_, h3⟩ := map_hexDigit (nibbles x) (nibbles_lt x hb)
  have hlen : ((nibbles x).reverse.map hexDigit).length = 32 := by
    simp [nibbles_length, hx]
  have hne : (nibbles x).reverse.map hexDigit ≠ [] := by
    intro h
    rw [h] at hlen
    simp at hlen
  unfold ip6Name
  rw [arpaToIP_nibble_labels lowerRune _ hne (by omega) h1 tail ht, hlen]
  simp only [List.map_reverse, List.reverse_reverse, h3, Nat.sub_self, List.replicate_zero,
    List.append_nil, packNibbles_nibbles]

set_option maxRecDepth 100000 in
theorem appendDecimal_eq_decimal : ∀ n < 256, appendDecimal n = decimal n := by
  decide

/-- The text of an IPv4-mapped address is the dotted quad of its last four
bytes. -/
theorem IPString_mapped (a b c d : Nat) (ha : a < 256) (hb : b < 256) (hc : c < 256)
    (hd : d < 256) : IPString (some (mapped a b c d)) = dottedQuad a b c d := by
  have hl : (mapped a b c d).length = 16 := by simp [mapped]
  have h4 : To4 (mapped a b c d) = some [a, b, c, d] := To4_mapped a b c d
  simp only [IPString, hl, h4]
  simp [string4, dottedQuad, appendDecimal_eq_decimal _ ha, appendDecimal_eq_decimal _ hb,
    appendDecimal_eq_decimal _ hc, appendDecimal_eq_decimal _ hd]

theorem mem_expectedAnswers_of_mem (qname ipStr zone : Str) (entries : Entries)
    (e : Str × RRMap) (he : e ∈ entries) (hin : ipStr ∈ allAddrs e.2) :
    ptrRecord qname e.1 zone ∈ expectedAnswers qname ipStr zone entries := by
  unfold expectedAnswers
  rw [List.mem_flatMap]
  refine ⟨e, he, ?_⟩
  have hne := (matchesOf_ne_nil_iff ipStr e.2).2 hin
  cases hm : matchesOf ipStr e.2 with
  | nil => exact absurd hm hne
  | cons s rest => simp

/-- Claim C19: an `ip6.arpa` name that encodes an IPv4-mapped address is matched
as an IPv4 address. On the full reverse name of `::ffff:a.b.c.d` the decoded
address is the mapped one, its text (the matching key) is the dotted `a.b.c.d`,
`resolvePTR` appends a PTR for every host whose `A` or `AAAA` list contains
`a.b.c.d`, and it appends none for a host whose address strings are all
`::ffff:a.b.c.d`. -/
theorem resolvePTR_mapped_ipv4 (lowerRune : Char → Char) (a b c d : Nat)
    (ha : a < 256) (hb : b < 256) (hc : c < 256) (hd : d < 256)
    (tail : Str) (ht : tail = [] ∨ tail = ['.'])
    (zone : Str) (entries : Entries) (answer : List PTR) :
    arpaToIP lowerRune (ip6Name (mapped a b c d) tail) = (some (mapped a b c d), true) ∧
      IPString (some (mapped a b c d)) = dottedQuad a b c d ∧
      resolvePTR lowerRune zone entries (ip6Name (mapped a b c d) tail) answer
        = answer ++ expectedAnswers (ip6Name (mapped a b c d) tail) (dottedQuad a b c d)
            (effectiveZone zone) entries ∧
      (∀ e ∈ entries, dottedQuad a b c d ∈ allAddrs e.2 →
        ptrRecord (ip6Name (mapped a b c d) tail) e.1 (effectiveZone zone)
          ∈ resolvePTR lowerRune zone entries (ip6Name (mapped a b c d) tail) answer) ∧
      (∀ (host : Str) (rrmap : RRMap),
        (∀ s ∈ allAddrs rrmap, s = [':', ':', 'f', 'f', 'f', 'f', ':'] ++ dottedQuad a b c d) →
        resolvePTR lowerRune zone [(host, rrmap)] (ip6Name (mapped a b c d) tail) answer
          = answer) := by
  have hdec : arpaToIP lowerRune (ip6Name (mapped a b c d) tail)
      = (some (mapped a b c d), true) := by
    apply arpaToIP_ip6Name lowerRune _ (by simp [mapped]) _ tail ht
    intro x hx
    simp only [mapped, List.mem_append, List.mem_cons, List.mem_singleton,
      List.not_mem_nil, or_false] at hx
    rcases hx with (hx | hx | hx) | hx | hx | hx | hx
    · rw [List.eq_of_mem_replicate hx]
      omega
    all_goals omega
  have hstr := IPString_mapped a b c d ha hb hc hd
  have hres : ∀ es : Entries,
      resolvePTR lowerRune zone es (ip6Name (mapped a b c d) tail) answer
        = answer ++ expectedAnswers (ip6Name (mapped a b c d) tail) (dottedQuad a b c d)
            (effectiveZone zone) es := by
    intro es
    rw [resolvePTR_of_found lowerRune zone es _ answer _ hdec, hstr]
  refine ⟨hdec, hstr, hres entries, ?_, ?_⟩
  · intro e he hin
    rw [hres entries]
    exact List.mem_append_right _ (mem_expectedAnswers_of_mem _ _ _ _ e he hin)
  · intro host rrmap hall
    have hnot : dottedQuad a b c d ∉ allAddrs rrmap := by
      intro hin
      have := hall _ hin
      have hl := congrArg List.length this
      simp at hl
      omega
    have hno : ∀ e ∈ [(host, rrmap)],
        dottedQuad a b c d ∉ addrsOf e.2 keyA ∧ dottedQuad a b c d ∉ addrsOf e.2 keyAAAA := by
      intro e he
      rw [List.mem_singleton] at he
      subst he
      exact ⟨fun h => hnot (List.mem_append_left _ h), fun h => hnot (List.mem_append_right _ h)⟩
    rw [hres, expectedAnswers_eq_nil _ _ _ _ hno, List.append_nil]

theorem resolvePTR_mapped_ipv4_witness :
    (resolvePTR id "example.com.".toList
        [("web".toList, mkRRMap (some ["10.0.0.5".toList]) none),
          ("six".toList, mkRRMap none (some ["::ffff:10.0.0.5".toList]))]
        (ip6Name (mapped 10 0 0 5) ['.']) []).map PTR.Ptr
      = ["web.example.com.".toList] := by
  rw [(resolvePTR_mapped_ipv4 id 10 0 0 5 (by decide) (by decide) (by decide) (by decide)
    ['.'] (Or.inr rfl) "example.com.".toList
    [("web".toList, mkRRMap (some ["10.0.0.5".toList]) none),
      ("six".toList, mkRRMap none (some ["::ffff:10.0.0.5".toList]))] []).2.2.1]
  decide

/-! ## Suffixes that are not whole labels -/

theorem Split_snoc_label (y l : Str) (sep : Char) (h : sep ∉ l) :
    Split (y ++ sep :: l) sep = Split y sep ++ [l] := by
  induction y with
  | nil => simp [Split, Split_of_not_mem l sep h]
  | cons c t ih =>
    by_cases hc : c = sep
    · simp [Split, hc, ← ih]
    · simp only [List.cons_append, Split, hc, if_false, List.append_eq]
      rw [ih]
      cases hs : Split t sep with
      | nil => exact absurd hs (Split_ne_nil t sep)
      | cons p ps => simp

theorem ParseIP_arpa (rest : Str) :
    ParseIP (utf8 (['a', 'r', 'p', 'a'] ++ '.' :: rest)) = none := by
  have hu : utf8 (['a', 'r', 'p', 'a'] ++ '.' :: rest)
      = [97, 114, 112, 97] ++ 0x2E :: utf8 rest := by
    rw [utf8_append]
    rfl
  rw [hu]
  unfold ParseIP ParseAddr
  rw [scan_dot_first _ [97, 114, 112, 97] _ (by decide)]
  simp [parseIPv4Fields, parseIPv4Fields.loop]

/-- The `in-addr.arpa` branch on a name that ends with the label `arpa`. -/
theorem v4_of_arpa_label (y : Str) : (arpaToIP.v4 (y ++ '.' :: ['a', 'r', 'p', 'a'])).2 = false := by
  have hs := Split_snoc_label y ['a', 'r', 'p', 'a'] '.' (by decide)
  unfold arpaToIP.v4
  split
  · rename_i o0 o1 o2 o3 heq
    rw [hs] at heq
    have hl := congrArg List.getLast? heq
    simp at hl
    subst hl
    rw [ParseIP_arpa]
  · rfl

/-- The `ip6.arpa` branch on a name that ends with the label `arpa`. -/
theorem v6_of_arpa_label (y : Str) : (arpaToIP.v6 (y ++ '.' :: ['a', 'r', 'p', 'a'])).2 = false := by
  have hs := Split_snoc_label y ['a', 'r', 'p', 'a'] '.' (by decide)
  have hl : len ['a', 'r', 'p', 'a'] ≠ 1 := by decide
  unfold arpaToIP.v6
  simp only [hs, List.reverse_append, List.reverse_singleton, List.singleton_append, buildHex,
    hl]
  split_ifs <;> rfl

/-- The two branches of `arpaToIP` on a normalized name `s` that ends with a
recognized suffix which is not a whole-label suffix. -/
theorem branches_partial_label (s : Str)
    (h : (HasSuffix s inAddrArpa = true ∧ HasSuffix s ('.' :: inAddrArpa) = false) ∨
        (HasSuffix s ip6Arpa = true ∧ HasSuffix s ('.' :: ip6Arpa) = false)) :
    (if HasSuffix s inAddrArpa then arpaToIP.v4 (TrimSuffix s ('.' :: inAddrArpa))
      else if HasSuffix s ip6Arpa then arpaToIP.v6 (TrimSuffix s ('.' :: ip6Arpa))
      else (none, false)).2 = false := by
  rcases h with ⟨h1, h2⟩ | ⟨h1, h2⟩
  · rw [if_pos h1, TrimSuffix_of_not _ _ h2]
    obtain ⟨x, rfl⟩ := (HasSuffix_iff _ _).1 h1
    have hy : x ++ inAddrArpa
        = (x ++ ['i', 'n', '-', 'a', 'd', 'd', 'r']) ++ '.' :: ['a', 'r', 'p', 'a'] := by
      simp [inAddrArpa]
    rw [hy]
    exact v4_of_arpa_label _
  · have h4 := ip6_not_inAddr _ h1
    rw [if_neg (by rw [h4]; decide), if_pos h1, TrimSuffix_of_not _ _ h2]
    obtain ⟨x, rfl⟩ := (HasSuffix_iff _ _).1 h1
    have hy : x ++ ip6Arpa = (x ++ ['i', 'p', '6']) ++ '.' :: ['a', 'r', 'p', 'a'] := by
      simp [ip6Arpa]
    rw [hy]
    exact v6_of_arpa_label _

/-- Claim C20: a recognized suffix only counts as a whole-label suffix. For a
name whose normalized form ends with `in-addr.arpa` but not with
`.in-addr.arpa`, or with `ip6.arpa` but not with `.ip6.arpa`, `arpaToIP` reports
`found = false`; the suffix test passes and the suffix is not stripped before
the split. -/
theorem arpaToIP_partial_label (lowerRune : Char → Char) (q : Str)
    (h : (HasSuffix (normalize lowerRune q) inAddrArpa = true ∧
          HasSuffix (normalize lowerRune q) ('.' :: inAddrArpa) = false) ∨
        (HasSuffix (normalize lowerRune q) ip6Arpa = true ∧
          HasSuffix (normalize lowerRune q) ('.' :: ip6Arpa) = false)) :
    (arpaToIP lowerRune q).2 = false ∧
      (HasSuffix (normalize lowerRune q) ('.' :: inAddrArpa) = false →
        TrimSuffix (normalize lowerRune q) ('.' :: inAddrArpa) = normalize lowerRune q) ∧
      (HasSuffix (normalize lowerRune q) ('.' :: ip6Arpa) = false →
        TrimSuffix (normalize lowerRune q) ('.' :: ip6Arpa) = normalize lowerRune q) :=
  ⟨branches_partial_label (normalize lowerRune q) h, TrimSuffix_of_not _ _,
    TrimSuffix_of_not _ _⟩

theorem arpaToIP_partial_label_witness :
    (arpaToIP id "in-addr.arpa".toList).2 = false ∧
      (arpaToIP id "4.3.2.1.xin-addr.arpa".toList).2 = false ∧
      (arpaToIP id "ip6.arpa".toList).2 = false ∧
      (arpaToIP id "1.aip6.arpa".toList).2 = false :=
  ⟨(arpaToIP_partial_label id "in-addr.arpa".toList (Or.inl ⟨by decide, by decide⟩)).1,
    (arpaToIP_partial_label id "4.3.2.1.xin-addr.arpa".toList (Or.inl ⟨by decide, by decide⟩)).1,
    (arpaToIP_partial_label id "ip6.arpa".toList (Or.inr ⟨by decide, by decide⟩)).1,
    (arpaToIP_partial_label id "1.aip6.arpa".toList (Or.inr ⟨by decide, by decide⟩)).1⟩

/-! ## Totality -/

theorem parseIPv6Hex_checkedLoop_eq (h : List Nat) (k i : Nat) (hl : 2 * (i + k) ≤ h.length) :
    parseIPv6Hex.checkedLoop h k i = some (parseIPv6Hex.loop k (h.drop (2 * i))) := by
  induction k generalizing i with
  | zero => rfl
  | succ k ih =>
    have hs : sliceChecked h (i * 2) (i * 2 + 2) = some ((h.drop (2 * i)).take 2) := by
      have hb : i * 2 ≤ i * 2 + 2 ∧ i * 2 + 2 ≤ h.length := by omega
      have e2 : i * 2 + 2 - i * 2 = 2 := by omega
      simp only [sliceChecked, if_pos hb, List.drop_take, e2, Nat.mul_comm]
    have hd : (h.drop (2 * i)).drop 2 = h.drop (2 * (i + 1)) := by
      rw [List.drop_drop]
      exact congrArg (fun n => List.drop n h) (by omega)
    rw [parseIPv6Hex.checkedLoop, parseIPv6Hex.loop, hs, hd, ih (i + 1) (by omega)]
    cases hP : ParseUint ((h.drop (2 * i)).take 2) 16 8 <;>
      cases hL : parseIPv6Hex.loop k (h.drop (2 * (i + 1))) <;> simp [hP, hL]

/-- The slices in `parseIPv6Hex` are always in bounds: it never panics. -/
theorem parseIPv6Hex_checked_eq (h : Str) : parseIPv6Hex.checked h = some (parseIPv6Hex h) := by
  unfold parseIPv6Hex.checked parseIPv6Hex
  by_cases hl : len h ≠ 32
  · simp [hl]
  · have hl2 : (utf8 h).length = 32 := by
      unfold len at hl
      omega
    rw [if_neg hl, if_neg hl, parseIPv6Hex_checkedLoop_eq _ 16 0 (by omega)]
    rfl

theorem buildHex_checked_eq (nibbles : List Str) (n : Nat) (hn : n ≤ nibbles.length) :
    buildHex.checked nibbles n = some (buildHex (nibbles.take n).reverse) := by
  induction n with
  | zero => rfl
  | succ n ih =>
    have hlt : n < nibbles.length := by omega
    have hget : nibbles[n]? = some nibbles[n] := List.getElem?_eq_getElem hlt
    have htake : (nibbles.take (n + 1)).reverse = nibbles[n] :: (nibbles.take n).reverse := by
      rw [List.take_succ, hget]
      simp
    rw [buildHex.checked, hget, htake, buildHex, ih (by omega)]
    by_cases hlen : len nibbles[n] ≠ 1
    · simp [hlen]
    · simp only [hlen, if_false]
      cases buildHex (nibbles.take n).reverse with
      | none => rfl
      | some hex => rfl

/-- The index accesses `oct[0]`..`oct[3]` are in bounds. -/
theorem checkedV4_eq (part : Str) : arpaToIP.checkedV4 part = some (arpaToIP.v4 part) := by
  unfold arpaToIP.checkedV4 arpaToIP.v4
  match hs : Split part '.' with
  | [o0, o1, o2, o3] =>
    cases hP : ParseIP (utf8 (o3 ++ '.' :: (o2 ++ '.' :: (o1 ++ '.' :: o0)))) <;> simp [hP]
  | [] => rfl
  | [_] => rfl
  | [_, _] => rfl
  | [_, _, _] => rfl
  | _ :: _ :: _ :: _ :: _ :: _ => rfl

theorem len_append (a b : Str) : len (a ++ b) = len a + len b := by
  simp [len, utf8_append]

theorem len_zeros (n : Nat) : len (List.replicate n '0') = n := by
  rw [len_ascii]
  · simp
  · intro c hc
    rw [List.eq_of_mem_replicate hc]
    decide

/-- The index accesses `nibbles[i]`, the repeat count and the slices of the
`ip6.arpa` branch are in bounds. -/
theorem checkedV6_eq (part : Str) : arpaToIP.checkedV6 part = some (arpaToIP.v6 part) := by
  unfold arpaToIP.checkedV6 arpaToIP.v6
  by_cases hbad : (Split part '.').length = 0 ∨ (Split part '.').length > 32
  · simp only [if_pos hbad]
  · simp only [if_neg hbad]
    rw [buildHex_checked_eq _ _ (Nat.le_refl _), List.take_length]
    cases buildHex (Split part '.').reverse with
    | none => rfl
    | some hex =>
      simp only
      by_cases hlt : len hex < 32
      · have hc : ¬ ((32 : Int) - (len hex : Int) < 0) := by omega
        have ht : ((32 : Int) - (len hex : Int)).toNat = 32 - len hex := by omega
        simp only [if_pos hlt, RepeatChecked, if_neg hc, ht, parseIPv6Hex_checked_eq]
        cases parseIPv6Hex (hex ++ List.replicate (32 - len hex) '0') with
        | none => rfl
        | some ip => rfl
      · simp only [if_neg hlt, parseIPv6Hex_checked_eq]
        cases parseIPv6Hex hex with
        | none => rfl
        | some ip => rfl

/-- The hex string handed to `parseIPv6Hex` has thirty-two bytes. -/
theorem hexArg_len (lowerRune : Char → Char) (q hex : Str)
    (h : arpaToIP.hexArg lowerRune q = some hex) : len hex = 32 := by
  unfold arpaToIP.hexArg at h
  simp only at h
  split_ifs at h with h1 h2 h3
  cases hb : buildHex (Split (TrimSuffix (normalize lowerRune q) ('.' :: ip6Arpa)) '.').reverse with
  | none => simp [hb] at h
  | some hex0 =>
    obtain ⟨cs, hcs, ha⟩ := buildHex_some _ _ hb
    have hb0 := hb
    rw [hcs, buildHex_singles cs ha] at hb0
    have hcs0 : hex0 = cs := (Option.some.inj hb0).symm
    have hlen : cs.length = (Split (TrimSuffix (normalize lowerRune q) ('.' :: ip6Arpa)) '.').length := by
      have := congrArg List.length hcs
      rw [List.length_reverse, singles_length] at this
      exact this.symm
    have hl0 : len hex0 = cs.length := by rw [hcs0, len_ascii cs ha]
    simp only [hb] at h
    have hh := Option.some.inj h
    rw [← hh]
    by_cases hlt : len hex0 < 32
    · rw [if_pos hlt, len_append, len_zeros]
      omega
    · rw [if_neg hlt]
      omega

/-- The hex string of `hexArg` is the argument of the call of `parseIPv6Hex`. -/
theorem arpaToIP_of_hexArg (lowerRune : Char → Char) (q hex : Str)
    (h : arpaToIP.hexArg lowerRune q = some hex) :
    arpaToIP lowerRune q
      = match parseIPv6Hex hex with
        | none => (none, false)
        | some ip => (some ip, true) := by
  unfold arpaToIP.hexArg at h
  simp only at h
  split_ifs at h with h1 h2 h3
  cases hb : buildHex (Split (TrimSuffix (normalize lowerRune q) ('.' :: ip6Arpa)) '.').reverse with
  | none => simp [hb] at h
  | some hex0 =>
    simp only [hb] at h
    have hh := Option.some.inj h
    simp only [arpaToIP, h1, h2, arpaToIP.v6, if_neg h3, hb, hh, if_true, Bool.false_eq_true,
      if_false]

/-- One more round of fuel changes nothing once the fuel covers the sixteen
bytes still to write. -/
theorem parseIPv6_loop_fuel (fuel : Nat) (s : List Nat) (i : Nat) (ellipsis : Option Nat)
    (ip : List Nat) (h : 16 ≤ i + 2 * fuel) :
    parseIPv6.loop (fuel + 1) s i ellipsis ip = parseIPv6.loop fuel s i ellipsis ip := by
  induction fuel generalizing s i ellipsis ip with
  | zero =>
    have hi : ¬ i < 16 := by omega
    simp [parseIPv6.loop, hi]
  | succ f ih =>
    have ih2 : ∀ (s : List Nat) (e : Option Nat) (ip : List Nat),
        parseIPv6.loop (f + 1) s (i + 2) e ip = parseIPv6.loop f s (i + 2) e ip :=
      fun s e ip => ih s (i + 2) e ip (by omega)
    conv_lhs => rw [parseIPv6.loop]
    conv_rhs => rw [parseIPv6.loop]
    simp only [ih2]

/-- Eight rounds are enough fuel for `parseIPv6.loop` from the first byte. -/
theorem parseIPv6_loop_enough (n : Nat) (s : List Nat) (ellipsis : Option Nat) :
    parseIPv6.loop (8 + n) s 0 ellipsis [] = parseIPv6.loop 8 s 0 ellipsis [] := by
  induction n with
  | zero => rfl
  | succ n ih =>
    rw [← ih]
    exact parseIPv6_loop_fuel (8 + n) s 0 ellipsis [] (by omega)

/-- Claim C11: `arpaToIP` is total. With the run-time panics explicit it always
returns, and returns what the plain reading returns: the index accesses
`oct[0..3]` and `nibbles[i]` and the slices `h[i*2 : i*2+2]` are in bounds.
`parseIPv6Hex` never panics on any string; the hex string handed to it has
length exactly 32, so its length check does not fail; and the loop of
`netip.parseIPv6` gives the same result for any fuel of eight rounds or more. -/
theorem arpaToIP_total (lowerRune : Char → Char) (q : Str) :
    arpaToIP.checked lowerRune q = some (arpaToIP lowerRune q) ∧
      (∀ h : Str, parseIPv6Hex.checked h = some (parseIPv6Hex h)) ∧
      (∀ hex : Str, arpaToIP.hexArg lowerRune q = some hex →
        len hex = 32 ∧
          arpaToIP lowerRune q
            = match parseIPv6Hex hex with
              | none => (none, false)
              | some ip => (some ip, true)) ∧
      (∀ (n : Nat) (s : List Nat) (ellipsis : Option Nat),
        parseIPv6.loop (8 + n) s 0 ellipsis [] = parseIPv6.loop 8 s 0 ellipsis []) := by
  refine ⟨?_, parseIPv6Hex_checked_eq, fun hex h => ⟨hexArg_len _ _ _ h, arpaToIP_of_hexArg _ _ _ h⟩,
    parseIPv6_loop_enough⟩
  unfold arpaToIP.checked arpaToIP
  simp only [checkedV4_eq, checkedV6_eq]
  split_ifs <;> rfl

theorem arpaToIP_total_witness :
    arpaToIP.hexArg id "8.b.d.0.1.0.0.2.ip6.arpa".toList
        = some "20010db8000000000000000000000000".toList ∧
      len "20010db8000000000000000000000000".toList = 32 :=
  ⟨by decide, ((arpaToIP_total id "8.b.d.0.1.0.0.2.ip6.arpa".toList).2.2.1
    "20010db8000000000000000000000000".toList (by decide)).1⟩

end ReverseDNS
